import Mathlib

/-!
Verification of the unsupervised response-evaluation data source
(`src/tasks/response_eval/data_source_unsupervised.py`).

The Python class `DataSourceUnsupervised` is embedded shallowly:

* Utterance dictionaries become the `Uttr` structure.  The mutable
  object graph (sessions own utterance dicts, the utterance pool and the
  segments alias them, negatives are `copy.deepcopy`-ed) is made explicit
  by a store: a `List Uttr` in which indices play the role of Python
  object identities.  Indices `0 .. poolSize-1` are the pooled session
  utterances (in pool order); indices `poolSize + k` are the deep copies
  allocated for negative samples, in allocation order.
  `utterance_meta["reference_uttr"]` (an object reference in Python)
  becomes `reference_uttr : Option Nat`, a store index.
* The tokenizer is external; it is kept abstract as a structure of
  functions, exactly its interface.
* `random.choice` draws are modelled by an oracle `rand : Nat → Nat`
  (the n-th random draw), reduced into range with `% pool.length`; the
  unbounded `while True` retry loop is modelled with explicit fuel, so
  construction returns `Option`: `none` covers both a never-terminating
  sampling loop (fuel exhausted) and a Python exception.
* Python `/` on ints is exact float division; it is modelled by exact
  division in `ℚ`.  `len(intersection)/len(id_set)` raises
  `ZeroDivisionError` on an empty set, modelled by `Option`.
-/

/-- External tokenizer interface (`§6` of the interface: string→tokens,
tokens→ids with optional bos/eos wrapping).  `convert_batch_ids_to_tensor`
only pads/stacks and is not needed for the properties below, which are
stated on the pre-tensor id lists. -/
structure Tokenizer where
  convert_string_to_tokens : String → List String
  convert_tokens_to_ids : List String → Bool → List Nat

/-- Configuration attributes read by the constructor. -/
structure Config where
  dataset_path : String
  max_uttr_len : Nat
  history_len : Nat

/-- A raw input utterance record: `{"text": ..., "floor": ...,
"utterance_meta": {...}}`.  The incoming `utterance_meta` content is
irrelevant to the data source (it only ever writes the
`reference_uttr` key), so it is not modelled. -/
structure RawUttr where
  text : String
  floor : String
deriving Repr, DecidableEq

/-- A raw input session: `{"utterances": [...]}`. -/
structure Session where
  utterances : List RawUttr
deriving Repr, DecidableEq

/-- An utterance dict after the constructor's `uttr.update({...})`:
original fields plus `tokens`, `token_ids`, `floor_id`, `is_next`, and
the later-added `utterance_meta["reference_uttr"]` as a store index. -/
structure Uttr where
  text : String
  floor : String
  tokens : List String
  token_ids : List Nat
  floor_id : Nat
  is_next : Bool
  reference_uttr : Option Nat
deriving Repr, DecidableEq, Inhabited

/-- A segment dict `{"utterances": [...], "segment_meta": {}}`; the
utterance list is stored as store indices (Python object references);
`segment_meta` is an always-empty placeholder and is omitted. -/
structure Seg where
  utterances : List Nat
deriving Repr, DecidableEq, Inhabited

/-- `["A", "B"].index(floor)`: 0 for "A", 1 for "B", and a `ValueError`
(modelled as `none`) otherwise. -/
def floorIndex (floor : String) : Option Nat :=
  if floor = "A" then some 0 else if floor = "B" then some 1 else none

/-- The per-utterance processing in the constructor's first loop:
truncate tokens to `max_uttr_len`, convert to bos/eos-wrapped ids, map
the floor label, set `is_next = True`. -/
def tokenizeUttr (tk : Tokenizer) (cfg : Config) (r : RawUttr) : Option Uttr :=
  match floorIndex r.floor with
  | none => none
  | some fid =>
    let tokens := (tk.convert_string_to_tokens r.text).take cfg.max_uttr_len
    let token_ids := tk.convert_tokens_to_ids tokens true
    some { text := r.text, floor := r.floor, tokens := tokens, token_ids := token_ids,
           floor_id := fid, is_next := true, reference_uttr := none }

/-- Process the utterances of one session in order, aborting on the
first `ValueError`. -/
def tokenizeUttrs (tk : Tokenizer) (cfg : Config) : List RawUttr → Option (List Uttr)
  | [] => some []
  | r :: rs =>
    match tokenizeUttr tk cfg r with
    | none => none
    | some u =>
      match tokenizeUttrs tk cfg rs with
      | none => none
      | some us => some (u :: us)

/-- Process every utterance of every session (the constructor's first
double loop). -/
def tokenizeSessions (tk : Tokenizer) (cfg : Config) : List Session →
    Option (List (List Uttr))
  | [] => some []
  | s :: ss =>
    match tokenizeUttrs tk cfg s.utterances with
    | none => none
    | some us =>
      match tokenizeSessions tk cfg ss with
      | none => none
      | some ts => some (us :: ts)

/-- `_are_different_uttrs(self, ids1, ids2)`: build the two id sets,
compute `coverage_score = (|∩|/|A| + |∩|/|B|)/2` and accept when it is
`< 0.8`.  The score as a rational (Python computes it with exact float
division on small integers; the spec states the exact arithmetic). -/
def coverage_score (ids1 ids2 : List Nat) : ℚ :=
  let id_set1 := ids1.toFinset
  let id_set2 := ids2.toFinset
  let intersection := id_set1 ∩ id_set2
  ((intersection.card : ℚ) / (id_set1.card : ℚ)
    + (intersection.card : ℚ) / (id_set2.card : ℚ)) / 2

/-- `_are_different_uttrs`; `none` models the `ZeroDivisionError` raised
when either id set is empty. -/
def are_different_uttrs (ids1 ids2 : List Nat) : Option Bool :=
  if ids1.toFinset.card = 0 ∨ ids2.toFinset.card = 0 then none
  else if coverage_score ids1 ids2 < 0.8 then some true else some false

/-- Helper for `pySplitSpace`: accumulate characters of the current
piece (reversed) and cut at every space. -/
def splitSpaceAux : List Char → List Char → List String
  | [], acc => [String.mk acc.reverse]
  | c :: cs, acc =>
    if c = ' ' then String.mk acc.reverse :: splitSpaceAux cs []
    else splitSpaceAux cs (c :: acc)

/-- Python `text.split(" ")`: split on every single space, keeping
empty pieces (`"".split(" ") == [""]`, `"a  b".split(" ") == ["a","","b"]`).
Defined by structural recursion over the character list so that it
evaluates inside the kernel. -/
def pySplitSpace (s : String) : List String := splitSpaceAux s.data []

/-- The flat utterance pool: every processed utterance across all
sessions, in session order (`self.utterance_pool`).  Store indices
`0 .. pool.length - 1` denote these objects. -/
def poolOf (ts : List (List Uttr)) : List Uttr := ts.flatten

/-- Pair each session with the store index of its first utterance
(the running offset into the flattened pool). -/
def offsetSessions : Nat → List (List Uttr) → List (Nat × List Uttr)
  | _, [] => []
  | off, us :: rest => (off, us) :: offsetSessions (off + us.length) rest

/-- The iteration space of the segment-building double loop:
`for sess in sessions: for segment_end_idx in range(1, len(uttrs))`,
as a flat list of (session offset, segment_end_idx) pairs in loop
order. -/
def segmentPairs (ts : List (List Uttr)) : List (Nat × Nat) :=
  ((offsetSessions 0 ts).map
    (fun p => (List.range' 1 (p.2.length - 1)).map (fun e => (p.1, e)))).flatten

/-- State threaded through the segment-building loop: the store
(pool objects, then deep copies in allocation order), the segment list
built so far (`self._segments`), and the number of random draws
consumed so far. -/
structure BuildState where
  store : List Uttr
  segments : List Seg
  rc : Nat
deriving Repr, DecidableEq

/-- `while True: negative_uttr = random.choice(self.utterance_pool); ...`
Candidate token ids are read from the pool (`token_ids` is never
mutated after tokenization, so the pool-order snapshot is exact).
Returns the chosen pool index and the updated draw counter; `none`
models both a crash inside `_are_different_uttrs` and a loop that does
not terminate within `fuel` draws. -/
def drawNegative (pool : List Uttr) (rand : Nat → Nat) (posIds : List Nat) :
    Nat → Nat → Option (Nat × Nat)
  | 0, _ => none
  | fuel + 1, rc =>
    let c := rand rc % pool.length
    match are_different_uttrs posIds ((pool.getD c default).token_ids) with
    | none => none
    | some true => some (c, rc + 1)
    | some false => drawNegative pool rand posIds fuel (rc + 1)

/-- `{u with utterance_meta["reference_uttr"] := r}`. -/
def setRef (u : Uttr) (r : Option Nat) : Uttr := { u with reference_uttr := r }

/-- One iteration of the segment-building loop body for
`(off, e) = (session offset, segment_end_idx)`:

* `segment_start_idx = max(0, segment_end_idx - history_len)` — `Nat`
  subtraction `e - hlen` truncates at 0, which is exactly `max(0, ·)`;
* append the positive segment (context `uttrs[start..e-1]` plus target
  `uttrs[e]`, i.e. store indices `off+start .. off+e`) and set the
  positive target's `reference_uttr` to itself;
* sample a negative, deep-copy it (a fresh store index holding the same
  field values), point its reference at the positive, clear `is_next`,
  and append the negative segment. -/
def buildSegmentPair (hlen : Nat) (pool : List Uttr) (rand : Nat → Nat) (fuel : Nat)
    (st : BuildState) (p : Nat × Nat) : Option BuildState :=
  let off := p.1
  let e := p.2
  let start := e - hlen
  let posId := off + e
  let ctx := List.range' (off + start) (e - start)
  let store1 := st.store.set posId (setRef (st.store.getD posId default) (some posId))
  let posSeg : Seg := ⟨ctx ++ [posId]⟩
  let posIds := (st.store.getD posId default).token_ids
  match drawNegative pool rand posIds fuel st.rc with
  | none => none
  | some (c, rc') =>
    let negUttr : Uttr :=
      { store1.getD c default with is_next := false, reference_uttr := some posId }
    let negId := store1.length
    let negSeg : Seg := ⟨ctx ++ [negId]⟩
    some ⟨store1 ++ [negUttr], st.segments ++ [posSeg, negSeg], rc'⟩

/-- The whole double loop, iterated over `segmentPairs`. -/
def buildLoop (hlen : Nat) (pool : List Uttr) (rand : Nat → Nat) (fuel : Nat) :
    BuildState → List (Nat × Nat) → Option BuildState
  | st, [] => some st
  | st, p :: ps =>
    match buildSegmentPair hlen pool rand fuel st p with
    | none => none
    | some st' => buildLoop hlen pool rand fuel st' ps

/-- `self.statistics`. -/
structure Stats where
  n_sessions : Nat
  n_uttrs : Nat
  n_tokens : Nat
  n_segments : Nat
deriving Repr, DecidableEq

/-- The constructed data source: the store (session utterances in pool
order, then the negative deep copies), `self._segments` as store-index
lists, `self.utterance_pool`'s size, `self.history_len`, and
`self.statistics`. -/
structure DataSource where
  store : List Uttr
  _segments : List Seg
  pool_size : Nat
  history_len : Nat
  statistics : Stats
deriving Repr, DecidableEq

/-- `DataSourceUnsupervised.__init__`: tokenize (aborting on an invalid
floor label), build the pool, run the segment-building loop, compute
statistics.  `rand`/`fuel` stand for the global random stream. -/
def mkDataSource (tk : Tokenizer) (cfg : Config) (rand : Nat → Nat) (fuel : Nat)
    (sessions : List Session) : Option DataSource :=
  match tokenizeSessions tk cfg sessions with
  | none => none
  | some ts =>
    let pool := poolOf ts
    match buildLoop cfg.history_len pool rand fuel ⟨pool, [], 0⟩ (segmentPairs ts) with
    | none => none
    | some st =>
      some { store := st.store
             _segments := st.segments
             pool_size := pool.length
             history_len := cfg.history_len
             statistics :=
               { n_sessions := sessions.length
                 n_uttrs := (sessions.map (fun s => s.utterances.length)).sum
                 n_tokens :=
                   (sessions.map (fun s =>
                     (s.utterances.map (fun u => (pySplitSpace u.text).length)).sum)).sum
                 n_segments := st.segments.length } }

/-- `__len__`. -/
def dsLen (ds : DataSource) : Nat := ds._segments.length

/-- Iteration state after `epoch_init`: the (possibly shuffled) segment
list and the cursor `self.cur_segment_idx`. -/
structure EpochState where
  segments : List Seg
  cur : Nat
deriving Repr, DecidableEq

/-- `epoch_init(shuffle)`.  `random.shuffle` on the deep-copied list is
modelled by the oracle permutation `shuffler` (deep-copying the segment
dicts has no observable effect here because nothing is mutated after
construction). -/
def epoch_init (ds : DataSource) (shuffle : Bool) (shuffler : List Seg → List Seg) :
    EpochState :=
  if shuffle then ⟨shuffler ds._segments, 0⟩ else ⟨ds._segments, 0⟩

/-- The batch dict assembled by `next`, before the external
`convert_batch_ids_to_tensor` / `.view` tensor packaging: the raw
per-row id lists in append order. -/
structure Batch where
  X : List (List Nat)
  X_floor : List Nat
  Y : List (List Nat)
  Y_floor : List Nat
  Y_is_next : List Bool
  Y_ref : List (List Nat)
deriving Repr, DecidableEq

def emptyBatch : Batch := ⟨[], [], [], [], [], []⟩

/-- The outcome of one `next` call: the `None` sentinel, a batch dict,
or a raised exception (`ZeroDivisionError` in
`history_len = X.size(0)//batch_size` when no target was collected). -/
inductive NextResult where
  | sentinel
  | batch (b : Batch)
  | err
deriving Repr, DecidableEq

/-- The padding utterance built at the top of `next` from the empty
string.  The Python `padding_uttr` dict has only the three keys read
below; the remaining `Uttr` fields are filler. -/
def paddingUttr (tk : Tokenizer) : Uttr :=
  let empty_tokens := tk.convert_string_to_tokens ""
  let empty_ids := tk.convert_tokens_to_ids empty_tokens true
  { text := "", floor := "", tokens := empty_tokens, token_ids := empty_ids,
    floor_id := 0, is_next := true, reference_uttr := none }

/-- The target utterance of a segment: `segment_uttrs[-1]`. -/
def segTarget (store : List Uttr) (seg : Seg) : Uttr :=
  store.getD (seg.utterances.getLastD 0) default

/-- The context utterances of a segment: `segment_uttrs[:-1]`. -/
def segCtx (store : List Uttr) (seg : Seg) : List Uttr :=
  seg.utterances.dropLast.map (fun i => store.getD i default)

/-- The body of `next`'s while loop for one accepted segment: append
the context rows, then `history_len - len(segment_uttrs) + 1` padding
rows (`(hlen + 1) - len` in `Nat` renders Python's
`max(0, hlen - len + 1)` iteration count), then the target's fields and
the resolved `reference_uttr`'s token ids. -/
def pushSegment (store : List Uttr) (pad : Uttr) (hlen : Nat) (acc : Batch)
    (seg : Seg) : Batch :=
  let ctxUttrs := segCtx store seg
  let padCount := (hlen + 1) - seg.utterances.length
  let tgt := segTarget store seg
  let refU := store.getD (tgt.reference_uttr.getD 0) default
  { X := acc.X ++ ctxUttrs.map Uttr.token_ids ++ List.replicate padCount pad.token_ids
    X_floor := acc.X_floor ++ ctxUttrs.map Uttr.floor_id
      ++ List.replicate padCount pad.floor_id
    Y := acc.Y ++ [tgt.token_ids]
    Y_floor := acc.Y_floor ++ [tgt.floor_id]
    Y_is_next := acc.Y_is_next ++ [tgt.is_next]
    Y_ref := acc.Y_ref ++ [refU.token_ids] }

/-- `next`'s while loop over the remaining segments (the suffix of
`self.segments` from the cursor): stop when `len(Y) == batch_size`,
skip positives when `return_paired_Y`, otherwise push the segment.
Returns the accumulated batch and the number of segments consumed. -/
def nextLoop (store : List Uttr) (pad : Uttr) (hlen bs : Nat) (rpy : Bool) :
    List Seg → Batch → Batch × Nat
  | [], acc => (acc, 0)
  | seg :: rest, acc =>
    if acc.Y.length = bs then (acc, 0)
    else if rpy && (segTarget store seg).is_next then
      let r := nextLoop store pad hlen bs rpy rest acc
      (r.1, r.2 + 1)
    else
      let r := nextLoop store pad hlen bs rpy rest (pushSegment store pad hlen acc seg)
      (r.1, r.2 + 1)

/-- `next(batch_size, return_paired_Y)`.  Returns the result together
with the updated iteration state.  When the collected `Y` is empty
(possible with `return_paired_Y` filtering, or `batch_size = 0`),
`batch_size = Y.size(0)` is 0 and `X.size(0)//batch_size` raises
`ZeroDivisionError`: modelled as `NextResult.err`. -/
def next (tk : Tokenizer) (store : List Uttr) (hlen : Nat) (es : EpochState)
    (bs : Nat) (rpy : Bool) : NextResult × EpochState :=
  if es.cur = es.segments.length then (NextResult.sentinel, es)
  else
    let pad := paddingUttr tk
    let r := nextLoop store pad hlen bs rpy (es.segments.drop es.cur) emptyBatch
    let es' : EpochState := ⟨es.segments, es.cur + r.2⟩
    if r.1.Y.length = 0 then (NextResult.err, es') else (NextResult.batch r.1, es')

/-- A concrete word-level test tokenizer (ids: bos = 1, eos = 2,
known words at 3..8, anything else 0). -/
def testTokenId (t : String) : Nat :=
  if t = "a" then 3 else if t = "b" then 4 else if t = "c" then 5
  else if t = "d" then 6 else if t = "e" then 7 else if t = "f" then 8 else 0

def testTokenizer : Tokenizer :=
  { convert_string_to_tokens := fun s =>
      if s = "" then []
      else if s = "a b" then ["a", "b"]
      else if s = "c d" then ["c", "d"]
      else if s = "e f" then ["e", "f"]
      else [s]
    convert_tokens_to_ids := fun ts bos =>
      if bos then 1 :: (ts.map testTokenId ++ [2]) else ts.map testTokenId }

def testConfig : Config :=
  { dataset_path := "data.json", max_uttr_len := 10, history_len := 2 }

/-- One session of three utterances with pairwise almost-disjoint
token-id sets (any two distinct ones share only bos/eos, coverage 1/2). -/
def testSessions : List Session :=
  [⟨[⟨"a b", "A"⟩, ⟨"c d", "B"⟩, ⟨"e f", "A"⟩]⟩]

/-- Random-draw oracle: draw 0 picks pool index 2, later draws pick 0;
both candidates pass the dissimilarity test at once. -/
def testRand : Nat → Nat := fun rc => if rc = 0 then 2 else 0

def testDS : DataSource :=
  (mkDataSource testTokenizer testConfig testRand 3 testSessions).getD
    { store := [], _segments := [], pool_size := 0, history_len := 0,
      statistics := ⟨0, 0, 0, 0⟩ }

/-! Small `List.getD` facts used to track the store through `set` (the
positive self-reference assignment) and `++` (deep-copy allocation). -/

theorem getD_set_ne {α : Type} (l : List α) {i j : Nat} (a d : α) (h : i ≠ j) :
    (l.set i a).getD j d = l.getD j d := by
  simp [List.getD, List.getElem?_set_ne h]

theorem getD_set_self {α : Type} (l : List α) {i : Nat} (a d : α) (h : i < l.length) :
    (l.set i a).getD i d = a := by
  simp [List.getD, List.getElem?_set_self, h]

theorem getD_append_left {α : Type} (l l2 : List α) {j : Nat} (d : α)
    (h : j < l.length) : (l ++ l2).getD j d = l.getD j d := by
  simp [List.getD, List.getElem?_append_left h]

theorem getD_append_len {α : Type} (l : List α) (a d : α) :
    (l ++ [a]).getD l.length d = a := by
  simp [List.getD]

theorem getD_mem {α : Type} (l : List α) {i : Nat} (d : α) (h : i < l.length) :
    l.getD i d ∈ l := by
  rw [List.getD_eq_getElem?_getD, List.getElem?_eq_getElem h, Option.getD_some]
  exact List.getElem_mem h

theorem getD_snoc_lt {α : Type} (l : List α) (a : α) {k : Nat} (d : α)
    (h : k < l.length) : (l ++ [a]).getD k d = l.getD k d :=
  getD_append_left l [a] d h

/-! Facts about the dissimilarity test. -/

/-- Acceptance is exactly the condition the spec states: both id sets
non-empty (otherwise Python raises) and coverage strictly below 0.8. -/
theorem are_different_iff (a b : List Nat) :
    are_different_uttrs a b = some true ↔
      a.toFinset.card ≠ 0 ∧ b.toFinset.card ≠ 0 ∧ coverage_score a b < 0.8 := by
  unfold are_different_uttrs
  by_cases h : a.toFinset.card = 0 ∨ b.toFinset.card = 0
  · simp [h]; tauto
  · push_neg at h
    by_cases hc : coverage_score a b < 0.8 <;>
      simp [h.1, h.2, hc]

/-- Unfolded form of the score (the local `let`s reduced away). -/
theorem coverage_score_def (a b : List Nat) :
    coverage_score a b =
      (((a.toFinset ∩ b.toFinset).card : ℚ) / (a.toFinset.card : ℚ)
        + ((a.toFinset ∩ b.toFinset).card : ℚ) / (b.toFinset.card : ℚ)) / 2 := rfl

/-- The coverage score is symmetric in its arguments. -/
theorem coverage_score_comm (a b : List Nat) :
    coverage_score a b = coverage_score b a := by
  rw [coverage_score_def, coverage_score_def, Finset.inter_comm]
  ring

/-- An utterance is never "different" from itself: on a non-empty id
set the coverage of a list with itself is 1. -/
theorem coverage_score_self (a : List Nat) (h : a.toFinset.card ≠ 0) :
    coverage_score a a = 1 := by
  rw [coverage_score_def, Finset.inter_self]
  have hq : (a.toFinset.card : ℚ) ≠ 0 := by exact_mod_cast h
  field_simp

theorem are_different_self_ne_true (a : List Nat) :
    are_different_uttrs a a ≠ some true := by
  intro hcon
  rw [are_different_iff] at hcon
  obtain ⟨h1, _, hlt⟩ := hcon
  rw [coverage_score_self a h1] at hlt
  norm_num at hlt

theorem getD_append_right_add {α : Type} (l l2 : List α) (x : Nat) (d : α) :
    (l ++ l2).getD (l.length + x) d = l2.getD x d := by
  simp [List.getD_eq_getElem?_getD, List.getElem?_append_right (Nat.le_add_right l.length x)]

/-! Indexing the flattened pool: the utterance of session `s` at
in-session position `j` sits at store index `offAt ts s + j`. -/

/-- The pool offset of session `s`: total utterance count of the
sessions before it. -/
def offAt (ts : List (List Uttr)) (s : Nat) : Nat := ((ts.take s).map List.length).sum

theorem offAt_zero (ts : List (List Uttr)) : offAt ts 0 = 0 := rfl

theorem offAt_succ_cons (us : List Uttr) (ts : List (List Uttr)) (s : Nat) :
    offAt (us :: ts) (s + 1) = us.length + offAt ts s := by
  simp [offAt]

theorem pool_getD (ts : List (List Uttr)) (s j : Nat) (hs : s < ts.length)
    (hj : j < (ts.getD s []).length) :
    (poolOf ts).getD (offAt ts s + j) default = (ts.getD s []).getD j default := by
  induction ts generalizing s with
  | nil => simp at hs
  | cons us rest ih =>
    cases s with
    | zero =>
      simp only [List.getD_cons_zero] at hj ⊢
      rw [offAt_zero, Nat.zero_add]
      show (us ++ poolOf rest).getD j default = us.getD j default
      exact getD_append_left us (poolOf rest) default hj
    | succ s =>
      simp only [List.getD_cons_succ] at hj ⊢
      rw [offAt_succ_cons, Nat.add_assoc]
      show (us ++ poolOf rest).getD (us.length + (offAt rest s + j)) default = _
      rw [getD_append_right_add]
      exact ih s (Nat.lt_of_succ_lt_succ hs) hj

theorem offAt_add_le (ts : List (List Uttr)) (s : Nat) (hs : s < ts.length) :
    offAt ts s + (ts.getD s []).length ≤ (poolOf ts).length := by
  induction ts generalizing s with
  | nil => simp at hs
  | cons us rest ih =>
    cases s with
    | zero =>
      rw [offAt_zero, Nat.zero_add]
      show us.length ≤ (us ++ poolOf rest).length
      simp
    | succ s =>
      rw [offAt_succ_cons, Nat.add_assoc]
      show _ ≤ (us ++ poolOf rest).length
      rw [List.length_append]
      exact Nat.add_le_add_left (ih s (Nat.lt_of_succ_lt_succ hs)) us.length

theorem offsetSessions_mem (ts : List (List Uttr)) (off0 : Nat) (q : Nat × List Uttr)
    (hq : q ∈ offsetSessions off0 ts) :
    ∃ s, s < ts.length ∧ q.1 = off0 + offAt ts s ∧ q.2 = ts.getD s [] := by
  induction ts generalizing off0 with
  | nil => simp [offsetSessions] at hq
  | cons us rest ih =>
    rw [offsetSessions] at hq
    rcases List.mem_cons.mp hq with h | h
    · exact ⟨0, by simp, by simp [h, offAt_zero], by simp [h]⟩
    · obtain ⟨s, hs, h1, h2⟩ := ih (off0 + us.length) h
      exact ⟨s + 1, by simpa using Nat.succ_lt_succ hs,
        by rw [h1, offAt_succ_cons]; omega, by simpa using h2⟩

/-- Every pair of the building loop is a valid (session offset,
end index) of `ts`. -/
theorem segmentPairs_mem (ts : List (List Uttr)) (p : Nat × Nat)
    (hp : p ∈ segmentPairs ts) :
    ∃ s, s < ts.length ∧ p.1 = offAt ts s ∧ 1 ≤ p.2 ∧ p.2 < (ts.getD s []).length := by
  rw [segmentPairs, List.mem_flatten] at hp
  obtain ⟨l, hl, hpl⟩ := hp
  rw [List.mem_map] at hl
  obtain ⟨q, hq, rfl⟩ := hl
  rw [List.mem_map] at hpl
  obtain ⟨e, he, rfl⟩ := hpl
  rw [List.mem_range'] at he
  obtain ⟨i, hi, rfl⟩ := he
  obtain ⟨s, hs, h1, h2⟩ := offsetSessions_mem ts 0 q hq
  refine ⟨s, hs, by simpa using h1, by omega, ?_⟩
  rw [← h2]
  omega

/-- Bounds needed for the store: a valid pair's positive target index
is inside the pool. -/
theorem segmentPairs_lt (ts : List (List Uttr)) (p : Nat × Nat)
    (hp : p ∈ segmentPairs ts) : p.1 + p.2 < (poolOf ts).length := by
  obtain ⟨s, hs, h1, h2, h3⟩ := segmentPairs_mem ts p hp
  have := offAt_add_le ts s hs
  omega

/-- Soundness of the rejection-sampling loop: a successful draw is a
pool index whose token ids pass the dissimilarity test against the
positive. -/
theorem drawNegative_sound (pool : List Uttr) (rand : Nat → Nat) (posIds : List Nat)
    (fuel rc c rc' : Nat)
    (h : drawNegative pool rand posIds fuel rc = some (c, rc')) :
    c < pool.length ∧
      are_different_uttrs posIds ((pool.getD c default).token_ids) = some true := by
  induction fuel generalizing rc with
  | zero => simp [drawNegative] at h
  | succ fuel ih =>
    rw [drawNegative] at h
    revert h
    cases hd : are_different_uttrs posIds
        ((pool.getD (rand rc % pool.length) default).token_ids) with
    | none => intro h; simp at h
    | some b =>
      cases b with
      | true =>
        intro h
        simp only [Option.some.injEq, Prod.mk.injEq] at h
        obtain ⟨rfl, rfl⟩ := h
        refine ⟨?_, hd⟩
        rcases Nat.eq_zero_or_pos pool.length with h0 | h0
        · exfalso
          rw [h0] at hd
          have : (pool.getD (rand rc % 0) default) = default := by
            have : pool = [] := List.length_eq_zero.mp h0
            simp [this]
          rw [this] at hd
          have : are_different_uttrs posIds (default : Uttr).token_ids = none := by
            unfold are_different_uttrs
            simp [show (default : Uttr).token_ids = [] from rfl]
          simp [this] at hd
        · exact Nat.mod_lt _ h0
      | false =>
        intro h
        exact ih (rc + 1) h

/-! Tokenization facts. -/

theorem tokenizeUttrs_all (tk : Tokenizer) (cfg : Config) (rs : List RawUttr)
    (us : List Uttr) (h : tokenizeUttrs tk cfg rs = some us) :
    ∀ u ∈ us, u.is_next = true ∧ u.reference_uttr = none := by
  induction rs generalizing us with
  | nil =>
    rw [tokenizeUttrs] at h
    simp only [Option.some.injEq] at h
    subst h; simp
  | cons r rs ih =>
    rw [tokenizeUttrs] at h
    revert h
    cases h1 : tokenizeUttr tk cfg r with
    | none => intro h; simp at h
    | some u =>
      cases h2 : tokenizeUttrs tk cfg rs with
      | none => intro h; simp at h
      | some us' =>
        intro h
        simp only [Option.some.injEq] at h
        subst h
        intro v hv
        rcases List.mem_cons.mp hv with rfl | hv'
        · unfold tokenizeUttr at h1
          revert h1
          cases floorIndex r.floor with
          | none => intro h1; simp at h1
          | some fid =>
            intro h1
            simp only [Option.some.injEq] at h1
            subst h1
            exact ⟨rfl, rfl⟩
        · exact ih us' h2 v hv'

theorem pool_is_next (tk : Tokenizer) (cfg : Config) (ss : List Session)
    (ts : List (List Uttr)) (h : tokenizeSessions tk cfg ss = some ts) :
    ∀ u ∈ poolOf ts, u.is_next = true ∧ u.reference_uttr = none := by
  induction ss generalizing ts with
  | nil =>
    rw [tokenizeSessions] at h
    simp only [Option.some.injEq] at h
    subst h; simp [poolOf]
  | cons s ss ih =>
    rw [tokenizeSessions] at h
    revert h
    cases h1 : tokenizeUttrs tk cfg s.utterances with
    | none => intro h; simp at h
    | some us =>
      cases h2 : tokenizeSessions tk cfg ss with
      | none => intro h; simp at h
      | some ts' =>
        intro h
        simp only [Option.some.injEq] at h
        subst h
        intro u hu
        have hu' : u ∈ us ++ poolOf ts' := by simpa [poolOf] using hu
        rcases List.mem_append.mp hu' with h | h
        · exact tokenizeUttrs_all tk cfg s.utterances us h1 u h
        · exact ih ts' h2 u h

theorem tokenizeUttrs_length (tk : Tokenizer) (cfg : Config) (rs : List RawUttr)
    (us : List Uttr) (h : tokenizeUttrs tk cfg rs = some us) : us.length = rs.length := by
  induction rs generalizing us with
  | nil =>
    rw [tokenizeUttrs] at h
    simp only [Option.some.injEq] at h
    subst h; rfl
  | cons r rs ih =>
    rw [tokenizeUttrs] at h
    revert h
    cases h1 : tokenizeUttr tk cfg r with
    | none => intro h; simp at h
    | some u =>
      cases h2 : tokenizeUttrs tk cfg rs with
      | none => intro h; simp at h
      | some us' =>
        intro h
        simp only [Option.some.injEq] at h
        subst h
        simp [ih us' h2]

theorem tokenizeSessions_lens (tk : Tokenizer) (cfg : Config) (ss : List Session)
    (ts : List (List Uttr)) (h : tokenizeSessions tk cfg ss = some ts) :
    ts.map List.length = ss.map (fun s => s.utterances.length) := by
  induction ss generalizing ts with
  | nil =>
    rw [tokenizeSessions] at h
    simp only [Option.some.injEq] at h
    subst h; rfl
  | cons s ss ih =>
    rw [tokenizeSessions] at h
    revert h
    cases h1 : tokenizeUttrs tk cfg s.utterances with
    | none => intro h; simp at h
    | some us =>
      cases h2 : tokenizeSessions tk cfg ss with
      | none => intro h; simp at h
      | some ts' =>
        intro h
        simp only [Option.some.injEq] at h
        subst h
        simp [tokenizeUttrs_length tk cfg s.utterances us h1, ih ts' h2]

/-! The construction invariant: a closed-form description of the store
and the segment list after any prefix `done` of the building loop. -/

/-- Two utterance records agree on every field except the
`reference_uttr` key (which is the only field `__init__` mutates on
pooled utterances). -/
def eqExceptRef (a b : Uttr) : Prop :=
  a.text = b.text ∧ a.floor = b.floor ∧ a.tokens = b.tokens ∧
  a.token_ids = b.token_ids ∧ a.floor_id = b.floor_id ∧ a.is_next = b.is_next

theorem eqExceptRef_refl (a : Uttr) : eqExceptRef a a :=
  ⟨rfl, rfl, rfl, rfl, rfl, rfl⟩

theorem eqExceptRef_setRef (u : Uttr) (r : Option Nat) : eqExceptRef (setRef u r) u :=
  ⟨rfl, rfl, rfl, rfl, rfl, rfl⟩

theorem eqExceptRef_trans {a b c : Uttr} (h1 : eqExceptRef a b) (h2 : eqExceptRef b c) :
    eqExceptRef a c := by
  obtain ⟨x1, x2, x3, x4, x5, x6⟩ := h1
  obtain ⟨y1, y2, y3, y4, y5, y6⟩ := h2
  exact ⟨x1.trans y1, x2.trans y2, x3.trans y3, x4.trans y4, x5.trans y5, x6.trans y6⟩

/-- `cpy` is the deep copy of `src` after the two overwrites of the
negative-sampling branch: same content, `is_next = False`,
`reference_uttr` pointing at the positive. -/
def copyFields (cpy src : Uttr) (posId : Nat) : Prop :=
  cpy.text = src.text ∧ cpy.floor = src.floor ∧ cpy.tokens = src.tokens ∧
  cpy.token_ids = src.token_ids ∧ cpy.floor_id = src.floor_id ∧
  cpy.is_next = false ∧ cpy.reference_uttr = some posId

/-- The (positive, negative) segment pair produced for the `k`-th
processed loop pair: context indices `off+start .. off+e-1`, then the
positive target `off+e`, resp. the `k`-th deep copy `N + k`. -/
def pairSegsAt (hlen N : Nat) (done : List (Nat × Nat)) (k : Nat) : List Seg :=
  let off := (done.getD k (0, 0)).1
  let e := (done.getD k (0, 0)).2
  let ctx := List.range' (off + (e - hlen)) (e - (e - hlen))
  [⟨ctx ++ [off + e]⟩, ⟨ctx ++ [N + k]⟩]

/-- The segment list after processing the pairs `done`. -/
def segsOf (hlen N : Nat) (done : List (Nat × Nat)) : List Seg :=
  ((List.range done.length).map (pairSegsAt hlen N done)).flatten

theorem pairSegsAt_snoc (hlen N : Nat) (done : List (Nat × Nat)) (p : Nat × Nat)
    (k : Nat) (hk : k < done.length) :
    pairSegsAt hlen N (done ++ [p]) k = pairSegsAt hlen N done k := by
  unfold pairSegsAt
  rw [getD_snoc_lt done p (0, 0) hk]

theorem segsOf_snoc (hlen N : Nat) (done : List (Nat × Nat)) (p : Nat × Nat) :
    segsOf hlen N (done ++ [p])
      = segsOf hlen N done ++ pairSegsAt hlen N (done ++ [p]) done.length := by
  unfold segsOf
  rw [List.length_append]
  simp only [List.length_cons, List.length_nil, Nat.add_zero]
  rw [List.range_succ, List.map_append, List.flatten_append]
  have hmap : (List.range done.length).map (pairSegsAt hlen N (done ++ [p]))
      = (List.range done.length).map (pairSegsAt hlen N done) := by
    apply List.map_congr_left
    intro k hk
    exact pairSegsAt_snoc hlen N done p k (List.mem_range.mp hk)
  rw [hmap]
  simp

/-- Invariant of the segment-building loop after processing the pairs
`done` (in order): store layout, pool-content preservation, positive
self-references, the negative copies, and the closed form of the
segment list. -/
structure BuildInv (pool : List Uttr) (hlen : Nat) (done : List (Nat × Nat))
    (st : BuildState) : Prop where
  store_len : st.store.length = pool.length + done.length
  pool_eq : ∀ i, i < pool.length →
    eqExceptRef (st.store.getD i default) (pool.getD i default)
  pos_ref : ∀ q ∈ done,
    (st.store.getD (q.1 + q.2) default).reference_uttr = some (q.1 + q.2)
  neg_copy : ∀ k, k < done.length →
    ∃ c, c < pool.length ∧ c ≠ (done.getD k (0, 0)).1 + (done.getD k (0, 0)).2 ∧
      copyFields (st.store.getD (pool.length + k) default) (pool.getD c default)
        ((done.getD k (0, 0)).1 + (done.getD k (0, 0)).2) ∧
      are_different_uttrs
        ((pool.getD ((done.getD k (0, 0)).1 + (done.getD k (0, 0)).2) default).token_ids)
        ((pool.getD c default).token_ids) = some true
  segs_eq : st.segments = segsOf hlen pool.length done

theorem buildSegmentPair_inv (pool : List Uttr) (hlen : Nat) (rand : Nat → Nat)
    (fuel : Nat) (done : List (Nat × Nat)) (st st' : BuildState) (p : Nat × Nat)
    (hp : p.1 + p.2 < pool.length)
    (hdone : ∀ q ∈ done, q.1 + q.2 < pool.length)
    (inv : BuildInv pool hlen done st)
    (h : buildSegmentPair hlen pool rand fuel st p = some st') :
    BuildInv pool hlen (done ++ [p]) st' := by
  simp only [buildSegmentPair] at h
  revert h
  cases hdraw : drawNegative pool rand
      ((st.store.getD (p.1 + p.2) default).token_ids) fuel st.rc with
  | none => intro h; simp at h
  | some cpair =>
    obtain ⟨c, rc'⟩ := cpair
    intro h
    simp only [Option.some.injEq] at h
    subst h
    obtain ⟨hc, hacc⟩ := drawNegative_sound pool rand _ fuel st.rc c rc' hdraw
    have hpos_tok : (st.store.getD (p.1 + p.2) default).token_ids
        = (pool.getD (p.1 + p.2) default).token_ids :=
      (inv.pool_eq (p.1 + p.2) hp).2.2.2.1
    have hacc' : are_different_uttrs ((pool.getD (p.1 + p.2) default).token_ids)
        ((pool.getD c default).token_ids) = some true := by
      rw [← hpos_tok]; exact hacc
    have hcne : c ≠ p.1 + p.2 := by
      intro hceq
      rw [hceq] at hacc'
      exact are_different_self_ne_true _ hacc'
    have hst1len : (st.store.set (p.1 + p.2)
        (setRef (st.store.getD (p.1 + p.2) default) (some (p.1 + p.2)))).length
        = pool.length + done.length := by
      rw [List.length_set]; exact inv.store_len
    have hposlt : p.1 + p.2 < st.store.length := by
      rw [inv.store_len]; omega
    refine ⟨?_, ?_, ?_, ?_, ?_⟩
    · -- store_len
      simp only [List.length_append, List.length_cons, List.length_nil, hst1len]
      omega
    · -- pool_eq
      intro i hi
      rw [getD_append_left _ _ default (by rw [hst1len]; omega)]
      by_cases hip : i = p.1 + p.2
      · subst hip
        rw [getD_set_self _ _ default hposlt]
        exact eqExceptRef_trans (eqExceptRef_setRef _ _) (inv.pool_eq _ hi)
      · rw [getD_set_ne _ _ default (fun hx => hip hx.symm)]
        exact inv.pool_eq i hi
    · -- pos_ref
      intro q hq
      have hqlt : q.1 + q.2 < pool.length := by
        rcases List.mem_append.mp hq with h' | h'
        · exact hdone q h'
        · rw [List.mem_singleton.mp h']; exact hp
      rw [getD_append_left _ _ default (by rw [hst1len]; omega)]
      by_cases hqp : q.1 + q.2 = p.1 + p.2
      · rw [hqp, getD_set_self _ _ default hposlt, setRef]
      · rw [getD_set_ne _ _ default (fun hx => hqp hx.symm)]
        rcases List.mem_append.mp hq with h' | h'
        · exact inv.pos_ref q h'
        · exact absurd (by rw [List.mem_singleton.mp h'] : q.1 + q.2 = p.1 + p.2) hqp
    · -- neg_copy
      intro k hk
      rw [List.length_append, List.length_singleton] at hk
      by_cases hkd : k < done.length
      · obtain ⟨c0, hc0, hc0ne, hcf, hacc0⟩ := inv.neg_copy k hkd
        refine ⟨c0, hc0, ?_, ?_, ?_⟩
        · rw [getD_snoc_lt done p (0, 0) hkd]; exact hc0ne
        · rw [getD_snoc_lt done p (0, 0) hkd]
          rw [getD_append_left _ _ default (by rw [hst1len]; omega)]
          rw [getD_set_ne _ _ default (by omega)]
          exact hcf
        · rw [getD_snoc_lt done p (0, 0) hkd]
          exact hacc0
      · have hkeq : k = done.length := by omega
        subst hkeq
        refine ⟨c, hc, ?_, ?_, ?_⟩
        · rw [getD_append_len done p (0, 0)]; exact hcne
        · rw [getD_append_len done p (0, 0)]
          have hidx : pool.length + done.length
              = (st.store.set (p.1 + p.2)
                  (setRef (st.store.getD (p.1 + p.2) default) (some (p.1 + p.2)))).length := by
            rw [hst1len]
          rw [hidx, getD_append_len]
          have hcget : (st.store.set (p.1 + p.2)
              (setRef (st.store.getD (p.1 + p.2) default) (some (p.1 + p.2)))).getD c default
              = st.store.getD c default :=
            getD_set_ne _ _ default (fun hx => hcne hx.symm)
          rw [hcget]
          have hpe := inv.pool_eq c hc
          exact ⟨hpe.1, hpe.2.1, hpe.2.2.1, hpe.2.2.2.1, hpe.2.2.2.2.1, rfl, rfl⟩
        · rw [getD_append_len done p (0, 0)]
          exact hacc'
    · -- segs_eq
      rw [inv.segs_eq, segsOf_snoc]
      unfold pairSegsAt
      rw [getD_append_len done p (0, 0)]
      have hnid : (st.store.set (p.1 + p.2)
          (setRef (st.store.getD (p.1 + p.2) default) (some (p.1 + p.2)))).length
          = pool.length + done.length := hst1len
      rw [hnid]

theorem buildLoop_inv (pool : List Uttr) (hlen : Nat) (rand : Nat → Nat) (fuel : Nat) :
    ∀ (ps done : List (Nat × Nat)) (st st' : BuildState),
    (∀ q ∈ done ++ ps, q.1 + q.2 < pool.length) →
    BuildInv pool hlen done st →
    buildLoop hlen pool rand fuel st ps = some st' →
    BuildInv pool hlen (done ++ ps) st' := by
  intro ps
  induction ps with
  | nil =>
    intro done st st' hv inv h
    rw [buildLoop] at h
    simp only [Option.some.injEq] at h
    subst h
    simpa using inv
  | cons p ps ih =>
    intro done st st' hv inv h
    rw [buildLoop] at h
    revert h
    cases hstep : buildSegmentPair hlen pool rand fuel st p with
    | none => intro h; simp at h
    | some st1 =>
      intro h
      have hp : p.1 + p.2 < pool.length := hv p (by simp)
      have hdone : ∀ q ∈ done, q.1 + q.2 < pool.length := by
        intro q hq; exact hv q (List.mem_append_left _ hq)
      have inv1 := buildSegmentPair_inv pool hlen rand fuel done st st1 p hp hdone inv hstep
      have hv1 : ∀ q ∈ (done ++ [p]) ++ ps, q.1 + q.2 < pool.length := by
        intro q hq
        apply hv
        simpa [List.append_assoc] using hq
      have := ih (done ++ [p]) st1 st' hv1 inv1 h
      simpa [List.append_assoc] using this

/-- Context index window of a loop pair: store indices
`off + max(0, e - hlen) .. off + e - 1`. -/
def ctxIds (p : Nat × Nat) (hlen : Nat) : List Nat :=
  List.range' (p.1 + (p.2 - hlen)) (p.2 - (p.2 - hlen))

theorem pairSegsAt_eq (hlen N : Nat) (done : List (Nat × Nat)) (k : Nat) :
    pairSegsAt hlen N done k =
      [⟨ctxIds (done.getD k (0, 0)) hlen ++ [(done.getD k (0, 0)).1 + (done.getD k (0, 0)).2]⟩,
       ⟨ctxIds (done.getD k (0, 0)) hlen ++ [N + k]⟩] := rfl

/-- Every segment of a state satisfying the invariant is the positive
or the negative segment of some processed pair. -/
theorem segsOf_char (hlen N : Nat) (done : List (Nat × Nat)) (seg : Seg)
    (hseg : seg ∈ segsOf hlen N done) :
    ∃ k, k < done.length ∧
      (seg = ⟨ctxIds (done.getD k (0, 0)) hlen
                ++ [(done.getD k (0, 0)).1 + (done.getD k (0, 0)).2]⟩ ∨
       seg = ⟨ctxIds (done.getD k (0, 0)) hlen ++ [N + k]⟩) := by
  unfold segsOf at hseg
  rw [List.mem_flatten] at hseg
  obtain ⟨l, hl, hsl⟩ := hseg
  rw [List.mem_map] at hl
  obtain ⟨k, hk, rfl⟩ := hl
  rw [List.mem_range] at hk
  rw [pairSegsAt_eq] at hsl
  rcases List.mem_cons.mp hsl with h | h
  · exact ⟨k, hk, Or.inl h⟩
  · rcases List.mem_cons.mp h with h' | h'
    · exact ⟨k, hk, Or.inr h'⟩
    · simp at h'

/-- Inversion of the constructor. -/
theorem mkDataSource_inv (tk : Tokenizer) (cfg : Config) (rand : Nat → Nat) (fuel : Nat)
    (sessions : List Session) (ds : DataSource)
    (h : mkDataSource tk cfg rand fuel sessions = some ds) :
    ∃ ts st, tokenizeSessions tk cfg sessions = some ts ∧
      buildLoop cfg.history_len (poolOf ts) rand fuel
        ⟨poolOf ts, [], 0⟩ (segmentPairs ts) = some st ∧
      ds.store = st.store ∧ ds._segments = st.segments ∧
      ds.pool_size = (poolOf ts).length ∧ ds.history_len = cfg.history_len ∧
      ds.statistics.n_segments = st.segments.length ∧
      ds.statistics.n_sessions = sessions.length := by
  unfold mkDataSource at h
  revert h
  cases hts : tokenizeSessions tk cfg sessions with
  | none => intro h; simp at h
  | some ts =>
    intro h
    simp only [] at h
    revert h
    cases hbl : buildLoop cfg.history_len (poolOf ts) rand fuel
        ⟨poolOf ts, [], 0⟩ (segmentPairs ts) with
    | none => intro h; simp at h
    | some st =>
      intro h
      simp only [Option.some.injEq] at h
      subst h
      exact ⟨ts, st, rfl, hbl, rfl, rfl, rfl, rfl, rfl, rfl⟩

/-- The invariant holds at the empty prefix for the initial state. -/
theorem buildInv_init (pool : List Uttr) (hlen : Nat) :
    BuildInv pool hlen [] ⟨pool, [], 0⟩ := by
  refine ⟨by simp, ?_, by simp, by simp, rfl⟩
  intro i hi
  exact eqExceptRef_refl _

/-- The construction invariant at the fully processed pair list, for a
successfully constructed data source. -/
theorem mkDataSource_final (tk : Tokenizer) (cfg : Config) (rand : Nat → Nat)
    (fuel : Nat) (sessions : List Session) (ds : DataSource)
    (h : mkDataSource tk cfg rand fuel sessions = some ds) :
    ∃ ts rc, tokenizeSessions tk cfg sessions = some ts ∧
      BuildInv (poolOf ts) cfg.history_len (segmentPairs ts)
        ⟨ds.store, ds._segments, rc⟩ ∧
      ds.pool_size = (poolOf ts).length ∧ ds.history_len = cfg.history_len ∧
      ds.statistics.n_segments = ds._segments.length ∧
      ds.statistics.n_sessions = sessions.length := by
  obtain ⟨ts, st, hts, hbl, hstore, hsegs, hpool, hhl, hnseg, hnsess⟩ :=
    mkDataSource_inv tk cfg rand fuel sessions ds h
  have hv : ∀ q ∈ ([] : List (Nat × Nat)) ++ segmentPairs ts,
      q.1 + q.2 < (poolOf ts).length := by
    intro q hq
    exact segmentPairs_lt ts q (by simpa using hq)
  have inv := buildLoop_inv (poolOf ts) cfg.history_len rand fuel
    (segmentPairs ts) [] ⟨poolOf ts, [], 0⟩ st hv
    (buildInv_init (poolOf ts) cfg.history_len) hbl
  rw [List.nil_append] at inv
  refine ⟨ts, st.rc, hts, ?_, hpool, hhl, by rw [hnseg, hsegs], hnsess⟩
  rw [hstore, hsegs]
  exact inv

/-! Batch-assembly facts about `next`'s while loop. -/

/-- The `i`-th group of `h` consecutive rows of `X` (one sample's
context slots; the reshape `X.view(batch_size, history_len, -1)`
reads them off in exactly this grouping). -/
def chunkAt {α : Type} (X : List α) (h i : Nat) : List α := (X.drop (i * h)).take h

theorem chunkAt_append_stable {α : Type} (X R : List α) (h i : Nat)
    (hb : (i + 1) * h ≤ X.length) : chunkAt (X ++ R) h i = chunkAt X h i := by
  unfold chunkAt
  have hb' : i * h + h ≤ X.length := by rw [Nat.succ_mul] at hb; exact hb
  rw [List.drop_append_of_le_length (by omega)]
  rw [List.take_append_of_le_length (by rw [List.length_drop]; omega)]

theorem chunkAt_append_new {α : Type} (X R : List α) (h n : Nat)
    (hx : X.length = n * h) (hr : R.length = h) : chunkAt (X ++ R) h n = R := by
  unfold chunkAt
  rw [← hx, List.drop_left, ← hr, List.take_length]

theorem segTarget_concat (store : List Uttr) (l : List Nat) (t : Nat) :
    segTarget store ⟨l ++ [t]⟩ = store.getD t default := by
  unfold segTarget
  simp [List.getLastD_concat]

theorem segCtx_concat (store : List Uttr) (l : List Nat) (t : Nat) :
    segCtx store ⟨l ++ [t]⟩ = l.map (fun i => store.getD i default) := by
  unfold segCtx
  simp

/-- One recorded sample of a batch: all of its rows and targets stem
from one accepted segment of `allowed`. -/
def entryFrom (store : List Uttr) (pad : Uttr) (hlen : Nat) (rpy : Bool)
    (allowed : List Seg) (b : Batch) (i : Nat) : Prop :=
  ∃ seg, seg ∈ allowed ∧ (rpy = true → (segTarget store seg).is_next = false) ∧
    chunkAt b.X hlen i =
      (segCtx store seg).map Uttr.token_ids
        ++ List.replicate ((hlen + 1) - seg.utterances.length) pad.token_ids ∧
    chunkAt b.X_floor hlen i =
      (segCtx store seg).map Uttr.floor_id
        ++ List.replicate ((hlen + 1) - seg.utterances.length) pad.floor_id ∧
    b.Y.getD i [] = (segTarget store seg).token_ids ∧
    b.Y_floor.getD i 0 = (segTarget store seg).floor_id ∧
    b.Y_is_next.getD i true = (segTarget store seg).is_next ∧
    b.Y_ref.getD i [] =
      (store.getD ((segTarget store seg).reference_uttr.getD 0) default).token_ids

/-- Shape and provenance of an assembled batch: each sample occupies
exactly `hlen` slots of `X`/`X_floor` (context first, then padding),
and all parallel `Y` lists are aligned. -/
def batchFrom (store : List Uttr) (pad : Uttr) (hlen : Nat) (rpy : Bool)
    (allowed : List Seg) (b : Batch) : Prop :=
  b.X.length = b.Y.length * hlen ∧ b.X_floor.length = b.Y.length * hlen ∧
  b.Y_floor.length = b.Y.length ∧ b.Y_is_next.length = b.Y.length ∧
  b.Y_ref.length = b.Y.length ∧
  ∀ i, i < b.Y.length → entryFrom store pad hlen rpy allowed b i

theorem batchFrom_empty (store : List Uttr) (pad : Uttr) (hlen : Nat) (rpy : Bool)
    (allowed : List Seg) : batchFrom store pad hlen rpy allowed emptyBatch := by
  refine ⟨by simp [emptyBatch], by simp [emptyBatch], rfl, rfl, rfl, ?_⟩
  intro i hi
  simp [emptyBatch] at hi


/-- The rows appended to `X` for one accepted segment: context token-id
rows first, then the padding rows. -/
def segRows (store : List Uttr) (pad : Uttr) (hlen : Nat) (seg : Seg) : List (List Nat) :=
  (segCtx store seg).map Uttr.token_ids
    ++ List.replicate ((hlen + 1) - seg.utterances.length) pad.token_ids

/-- The rows appended to `X_floor` for one accepted segment. -/
def segRowsF (store : List Uttr) (pad : Uttr) (hlen : Nat) (seg : Seg) : List Nat :=
  (segCtx store seg).map Uttr.floor_id
    ++ List.replicate ((hlen + 1) - seg.utterances.length) pad.floor_id

theorem pushSegment_X (store : List Uttr) (pad : Uttr) (hlen : Nat) (acc : Batch)
    (seg : Seg) : (pushSegment store pad hlen acc seg).X
      = acc.X ++ segRows store pad hlen seg := by
  simp [pushSegment, segRows]

theorem pushSegment_Xf (store : List Uttr) (pad : Uttr) (hlen : Nat) (acc : Batch)
    (seg : Seg) : (pushSegment store pad hlen acc seg).X_floor
      = acc.X_floor ++ segRowsF store pad hlen seg := by
  simp [pushSegment, segRowsF]

theorem pushSegment_Y (store : List Uttr) (pad : Uttr) (hlen : Nat) (acc : Batch)
    (seg : Seg) : (pushSegment store pad hlen acc seg).Y
      = acc.Y ++ [(segTarget store seg).token_ids] := rfl

theorem pushSegment_Yf (store : List Uttr) (pad : Uttr) (hlen : Nat) (acc : Batch)
    (seg : Seg) : (pushSegment store pad hlen acc seg).Y_floor
      = acc.Y_floor ++ [(segTarget store seg).floor_id] := rfl

theorem pushSegment_Yn (store : List Uttr) (pad : Uttr) (hlen : Nat) (acc : Batch)
    (seg : Seg) : (pushSegment store pad hlen acc seg).Y_is_next
      = acc.Y_is_next ++ [(segTarget store seg).is_next] := rfl

theorem pushSegment_Yr (store : List Uttr) (pad : Uttr) (hlen : Nat) (acc : Batch)
    (seg : Seg) : (pushSegment store pad hlen acc seg).Y_ref
      = acc.Y_ref
        ++ [(store.getD ((segTarget store seg).reference_uttr.getD 0) default).token_ids] := rfl

theorem segRows_length (store : List Uttr) (pad : Uttr) (hlen : Nat) (seg : Seg)
    (hl1 : 1 ≤ seg.utterances.length) (hl2 : seg.utterances.length ≤ hlen + 1) :
    (segRows store pad hlen seg).length = hlen := by
  simp only [segRows, List.length_append, List.length_map, List.length_replicate]
  simp only [segCtx, List.length_map, List.length_dropLast]
  omega

theorem segRowsF_length (store : List Uttr) (pad : Uttr) (hlen : Nat) (seg : Seg)
    (hl1 : 1 ≤ seg.utterances.length) (hl2 : seg.utterances.length ≤ hlen + 1) :
    (segRowsF store pad hlen seg).length = hlen := by
  simp only [segRowsF, List.length_append, List.length_map, List.length_replicate]
  simp only [segCtx, List.length_map, List.length_dropLast]
  omega

theorem pushSegment_from (store : List Uttr) (pad : Uttr) (hlen : Nat) (rpy : Bool)
    (allowed : List Seg) (acc : Batch) (seg : Seg)
    (hseg : seg ∈ allowed)
    (hl1 : 1 ≤ seg.utterances.length)
    (hl2 : seg.utterances.length ≤ hlen + 1)
    (hskip : rpy = true → (segTarget store seg).is_next = false)
    (hacc : batchFrom store pad hlen rpy allowed acc) :
    batchFrom store pad hlen rpy allowed (pushSegment store pad hlen acc seg) := by
  obtain ⟨hX, hXf, hYf, hYn, hYr, hent⟩ := hacc
  have hrows := segRows_length store pad hlen seg hl1 hl2
  have hrowsf := segRowsF_length store pad hlen seg hl1 hl2
  refine ⟨?_, ?_, ?_, ?_, ?_, ?_⟩
  · rw [pushSegment_X, pushSegment_Y, List.length_append, List.length_append,
      hX, hrows, List.length_cons, List.length_nil, Nat.succ_mul]
  · rw [pushSegment_Xf, pushSegment_Y, List.length_append, List.length_append,
      hXf, hrowsf, List.length_cons, List.length_nil, Nat.succ_mul]
  · rw [pushSegment_Yf, pushSegment_Y, List.length_append, List.length_append, hYf]
    simp
  · rw [pushSegment_Yn, pushSegment_Y, List.length_append, List.length_append, hYn]
    simp
  · rw [pushSegment_Yr, pushSegment_Y, List.length_append, List.length_append, hYr]
    simp
  · intro i hi
    rw [pushSegment_Y, List.length_append, List.length_cons, List.length_nil] at hi
    by_cases hio : i < acc.Y.length
    · obtain ⟨g, hg, hgskip, hcx, hcxf, hy, hyf, hyn, hyr⟩ := hent i hio
      refine ⟨g, hg, hgskip, ?_, ?_, ?_, ?_, ?_, ?_⟩
      · rw [pushSegment_X, chunkAt_append_stable _ _ hlen i
          (by rw [hX]; exact Nat.mul_le_mul_right hlen hio)]
        exact hcx
      · rw [pushSegment_Xf, chunkAt_append_stable _ _ hlen i
          (by rw [hXf]; exact Nat.mul_le_mul_right hlen hio)]
        exact hcxf
      · rw [pushSegment_Y, getD_snoc_lt acc.Y _ [] hio]; exact hy
      · rw [pushSegment_Yf, getD_snoc_lt acc.Y_floor _ 0 (by omega)]; exact hyf
      · rw [pushSegment_Yn, getD_snoc_lt acc.Y_is_next _ true (by omega)]; exact hyn
      · rw [pushSegment_Yr, getD_snoc_lt acc.Y_ref _ [] (by omega)]; exact hyr
    · have hieq : i = acc.Y.length := by omega
      subst hieq
      refine ⟨seg, hseg, hskip, ?_, ?_, ?_, ?_, ?_, ?_⟩
      · rw [pushSegment_X, chunkAt_append_new _ _ hlen acc.Y.length hX hrows]
        rfl
      · rw [pushSegment_Xf, chunkAt_append_new _ _ hlen acc.Y.length hXf hrowsf]
        rfl
      · rw [pushSegment_Y, getD_append_len acc.Y _ []]
      · rw [pushSegment_Yf, show acc.Y.length = acc.Y_floor.length from hYf.symm,
            getD_append_len acc.Y_floor _ 0]
      · rw [pushSegment_Yn, show acc.Y.length = acc.Y_is_next.length from hYn.symm,
            getD_append_len acc.Y_is_next _ true]
      · rw [pushSegment_Yr, show acc.Y.length = acc.Y_ref.length from hYr.symm,
            getD_append_len acc.Y_ref _ []]

theorem nextLoop_from (store : List Uttr) (pad : Uttr) (hlen bs : Nat) (rpy : Bool)
    (allowed : List Seg) :
    ∀ (segs : List Seg) (acc : Batch),
    (∀ seg ∈ segs, seg ∈ allowed ∧ 1 ≤ seg.utterances.length ∧
      seg.utterances.length ≤ hlen + 1) →
    batchFrom store pad hlen rpy allowed acc →
    batchFrom store pad hlen rpy allowed (nextLoop store pad hlen bs rpy segs acc).1 := by
  intro segs
  induction segs with
  | nil =>
    intro acc hs hacc
    rw [nextLoop]
    exact hacc
  | cons seg rest ih =>
    intro acc hs hacc
    rw [nextLoop]
    by_cases hfull : acc.Y.length = bs
    · rw [if_pos hfull]
      exact hacc
    · rw [if_neg hfull]
      have hrest : ∀ g ∈ rest, g ∈ allowed ∧ 1 ≤ g.utterances.length ∧
          g.utterances.length ≤ hlen + 1 :=
        fun g hg => hs g (List.mem_cons_of_mem seg hg)
      by_cases hsk : (rpy && (segTarget store seg).is_next) = true
      case pos =>
        rw [if_pos hsk]
        exact ih acc hrest hacc
      case neg =>
        rw [if_neg hsk]
        have hskip : rpy = true → (segTarget store seg).is_next = false := by
          intro hr
          rw [hr, Bool.true_and] at hsk
          exact Bool.eq_false_iff.mpr hsk
        obtain ⟨hsa, hs1, hs2⟩ := hs seg (List.mem_cons_self seg rest)
        exact ih _ hrest (pushSegment_from store pad hlen rpy allowed acc seg
          hsa hs1 hs2 hskip hacc)

theorem nextLoop_k_le (store : List Uttr) (pad : Uttr) (hlen bs : Nat) (rpy : Bool) :
    ∀ (segs : List Seg) (acc : Batch),
    (nextLoop store pad hlen bs rpy segs acc).2 ≤ segs.length := by
  intro segs
  induction segs with
  | nil => intro acc; rw [nextLoop]; simp
  | cons seg rest ih =>
    intro acc
    rw [nextLoop]
    by_cases hfull : acc.Y.length = bs
    · rw [if_pos hfull]; simp
    · rw [if_neg hfull]
      by_cases hsk : (rpy && (segTarget store seg).is_next) = true
      case pos =>
        rw [if_pos hsk]
        simpa using Nat.succ_le_succ (ih acc)
      case neg =>
        rw [if_neg hsk]
        simpa using Nat.succ_le_succ (ih (pushSegment store pad hlen acc seg))

theorem nextLoop_Y_le_bs (store : List Uttr) (pad : Uttr) (hlen bs : Nat) (rpy : Bool) :
    ∀ (segs : List Seg) (acc : Batch), acc.Y.length ≤ bs →
    (nextLoop store pad hlen bs rpy segs acc).1.Y.length ≤ bs := by
  intro segs
  induction segs with
  | nil => intro acc hle; rw [nextLoop]; exact hle
  | cons seg rest ih =>
    intro acc hle
    rw [nextLoop]
    by_cases hfull : acc.Y.length = bs
    · rw [if_pos hfull]; exact hle
    · rw [if_neg hfull]
      by_cases hsk : (rpy && (segTarget store seg).is_next) = true
      case pos =>
        rw [if_pos hsk]
        exact ih acc hle
      case neg =>
        rw [if_neg hsk]
        apply ih
        rw [pushSegment_Y, List.length_append]
        simp only [List.length_cons, List.length_nil]
        omega

theorem nextLoop_Y_mono (store : List Uttr) (pad : Uttr) (hlen bs : Nat) (rpy : Bool) :
    ∀ (segs : List Seg) (acc : Batch),
    acc.Y.length ≤ (nextLoop store pad hlen bs rpy segs acc).1.Y.length := by
  intro segs
  induction segs with
  | nil => intro acc; rw [nextLoop]
  | cons seg rest ih =>
    intro acc
    rw [nextLoop]
    by_cases hfull : acc.Y.length = bs
    · rw [if_pos hfull]
    · rw [if_neg hfull]
      by_cases hsk : (rpy && (segTarget store seg).is_next) = true
      case pos =>
        rw [if_pos hsk]
        exact ih acc
      case neg =>
        rw [if_neg hsk]
        refine le_trans ?_ (ih (pushSegment store pad hlen acc seg))
        rw [pushSegment_Y, List.length_append]
        simp

/-- A batch strictly smaller than `batch_size` is only possible when
the loop ran off the end of the segment list. -/
theorem nextLoop_tail (store : List Uttr) (pad : Uttr) (hlen bs : Nat) (rpy : Bool) :
    ∀ (segs : List Seg) (acc : Batch), acc.Y.length ≤ bs →
    (nextLoop store pad hlen bs rpy segs acc).1.Y.length < bs →
    (nextLoop store pad hlen bs rpy segs acc).2 = segs.length := by
  intro segs
  induction segs with
  | nil => intro acc _ _; rw [nextLoop]; rfl
  | cons seg rest ih =>
    intro acc hle hlt
    rw [nextLoop] at hlt ⊢
    by_cases hfull : acc.Y.length = bs
    · rw [if_pos hfull] at hlt
      simp only [] at hlt
      exfalso
      omega
    · rw [if_neg hfull] at hlt ⊢
      by_cases hsk : (rpy && (segTarget store seg).is_next) = true
      case pos =>
        rw [if_pos hsk] at hlt ⊢
        simp only [List.length_cons]
        have := ih acc hle (by simpa using hlt)
        simpa using this
      case neg =>
        rw [if_neg hsk] at hlt ⊢
        simp only [List.length_cons]
        have hle' : (pushSegment store pad hlen acc seg).Y.length ≤ bs := by
          rw [pushSegment_Y, List.length_append]
          simp only [List.length_cons, List.length_nil]
          omega
        have := ih (pushSegment store pad hlen acc seg) hle' (by simpa using hlt)
        simpa using this

/-- With `return_paired_Y = False` and enough room, the loop consumes
every segment and records the targets in order. -/
theorem nextLoop_false_full (store : List Uttr) (pad : Uttr) (hlen bs : Nat) :
    ∀ (segs : List Seg) (acc : Batch), acc.Y.length + segs.length ≤ bs →
    (nextLoop store pad hlen bs false segs acc).2 = segs.length ∧
    (nextLoop store pad hlen bs false segs acc).1.Y
      = acc.Y ++ segs.map (fun g => (segTarget store g).token_ids) ∧
    (nextLoop store pad hlen bs false segs acc).1.Y_is_next
      = acc.Y_is_next ++ segs.map (fun g => (segTarget store g).is_next) := by
  intro segs
  induction segs with
  | nil =>
    intro acc hroom
    rw [nextLoop]
    simp
  | cons seg rest ih =>
    intro acc hroom
    rw [nextLoop]
    simp only [List.length_cons] at hroom
    have hfull : ¬(acc.Y.length = bs) := by omega
    rw [if_neg hfull]
    rw [if_neg (by simp : ¬(false && (segTarget store seg).is_next) = true)]
    have hroom' : (pushSegment store pad hlen acc seg).Y.length + rest.length ≤ bs := by
      rw [pushSegment_Y, List.length_append]
      simp only [List.length_cons, List.length_nil]
      omega
    obtain ⟨ihk, ihy, ihn⟩ := ih (pushSegment store pad hlen acc seg) hroom'
    refine ⟨by simpa using ihk, ?_, ?_⟩
    · rw [ihy, pushSegment_Y]
      simp
    · rw [ihn, pushSegment_Yn]
      simp

/-- With `return_paired_Y = False` and room in the batch, a non-empty
remaining segment list yields at least one target. -/
theorem nextLoop_false_progress (store : List Uttr) (pad : Uttr) (hlen bs : Nat)
    (seg : Seg) (rest : List Seg) (acc : Batch) (hroom : acc.Y.length < bs) :
    acc.Y.length + 1 ≤ (nextLoop store pad hlen bs false (seg :: rest) acc).1.Y.length := by
  rw [nextLoop]
  rw [if_neg (by omega : ¬(acc.Y.length = bs))]
  rw [if_neg (by simp : ¬(false && (segTarget store seg).is_next) = true)]
  refine le_trans ?_ (nextLoop_Y_mono store pad hlen bs false rest
    (pushSegment store pad hlen acc seg))
  rw [pushSegment_Y, List.length_append]
  simp

/-- The expected alternation of `is_next` flags over `n` consecutive
(positive, negative) segment pairs. -/
def altPattern : Nat → List Bool
  | 0 => []
  | n + 1 => true :: false :: altPattern n

theorem altPattern_snoc (n : Nat) :
    altPattern (n + 1) = altPattern n ++ [true, false] := by
  induction n with
  | zero => rfl
  | succ n ih =>
    show true :: false :: altPattern (n + 1)
      = (true :: false :: altPattern n) ++ [true, false]
    rw [ih]
    simp

theorem segsOf_length (hlen N : Nat) (done : List (Nat × Nat)) :
    (segsOf hlen N done).length = 2 * done.length := by
  induction done using List.reverseRecOn with
  | nil => rfl
  | append_singleton done p ih =>
    rw [segsOf_snoc, List.length_append, ih, pairSegsAt_eq]
    simp only [List.length_append, List.length_cons, List.length_nil]
    omega

theorem segsOf_is_next_pattern (store : List Uttr) (hlen N : Nat)
    (done : List (Nat × Nat))
    (hfacts : ∀ k, k < done.length →
      (store.getD ((done.getD k (0, 0)).1 + (done.getD k (0, 0)).2) default).is_next = true ∧
      (store.getD (N + k) default).is_next = false) :
    (segsOf hlen N done).map (fun g => (segTarget store g).is_next)
      = altPattern done.length := by
  induction done using List.reverseRecOn with
  | nil => rfl
  | append_singleton done p ih =>
    rw [segsOf_snoc, List.map_append, List.length_append,
        List.length_cons, List.length_nil, Nat.add_zero, altPattern_snoc]
    congr 1
    · apply ih
      intro k hk
      have hfk := hfacts k (by rw [List.length_append]; simp; omega)
      rw [getD_snoc_lt done p (0, 0) hk] at hfk
      exact hfk
    · obtain ⟨hpos, hneg⟩ := hfacts done.length
        (by rw [List.length_append]; simp)
      rw [getD_append_len done p (0, 0)] at hpos
      rw [pairSegsAt_eq, getD_append_len done p (0, 0)]
      simp only [List.map_cons, List.map_nil, segTarget_concat]
      rw [hpos, hneg]

theorem buildInv_pattern_facts (pool : List Uttr) (hlen : Nat)
    (done : List (Nat × Nat)) (st : BuildState)
    (inv : BuildInv pool hlen done st)
    (hpool : ∀ u ∈ pool, u.is_next = true)
    (hv : ∀ q ∈ done, q.1 + q.2 < pool.length) :
    ∀ k, k < done.length →
      (st.store.getD ((done.getD k (0, 0)).1 + (done.getD k (0, 0)).2) default).is_next
        = true ∧
      (st.store.getD (pool.length + k) default).is_next = false := by
  intro k hk
  have hq : done.getD k (0, 0) ∈ done := getD_mem done (0, 0) hk
  have hqlt := hv _ hq
  constructor
  · have heq := (inv.pool_eq _ hqlt).2.2.2.2.2
    rw [heq]
    exact hpool _ (getD_mem pool default hqlt)
  · obtain ⟨c, _, _, hcf, _⟩ := inv.neg_copy k hk
    exact hcf.2.2.2.2.2.1

theorem segmentPairs_length (ts : List (List Uttr)) :
    (segmentPairs ts).length = (ts.map (fun us => us.length - 1)).sum := by
  unfold segmentPairs
  suffices h : ∀ off, ((((offsetSessions off ts)).map
      (fun p => (List.range' 1 (p.2.length - 1)).map (fun e => (p.1, e)))).flatten).length
      = (ts.map (fun us => us.length - 1)).sum from h 0
  induction ts with
  | nil => intro off; rfl
  | cons us rest ih =>
    intro off
    rw [offsetSessions]
    simp only [List.map_cons, List.flatten_cons, List.length_append, List.sum_cons,
      List.length_map, List.length_range']
    rw [ih (off + us.length)]

/-- Final-state invariant, with the tokenization pinned to a given
`ts` (tokenization is deterministic). -/
theorem mkDataSource_final_at (tk : Tokenizer) (cfg : Config) (rand : Nat → Nat)
    (fuel : Nat) (sessions : List Session) (ds : DataSource) (ts : List (List Uttr))
    (hts : tokenizeSessions tk cfg sessions = some ts)
    (hmk : mkDataSource tk cfg rand fuel sessions = some ds) :
    ∃ rc, BuildInv (poolOf ts) cfg.history_len (segmentPairs ts)
        ⟨ds.store, ds._segments, rc⟩ ∧
      ds.pool_size = (poolOf ts).length ∧ ds.history_len = cfg.history_len ∧
      ds.statistics.n_segments = ds._segments.length ∧
      ds.statistics.n_sessions = sessions.length := by
  obtain ⟨ts', rc, hts', inv, h1, h2, h3, h4⟩ :=
    mkDataSource_final tk cfg rand fuel sessions ds hmk
  have hts'' : ts' = ts := by
    rw [hts] at hts'
    exact (Option.some.inj hts').symm
  subst hts''
  exact ⟨rc, inv, h1, h2, h3, h4⟩

/-- Distinct accepted candidates have distinct token-id sets. -/
theorem are_different_ne_sets (a b : List Nat)
    (h : are_different_uttrs a b = some true) : a.toFinset ≠ b.toFinset := by
  intro hset
  rw [are_different_iff] at h
  obtain ⟨h1, h2, hlt⟩ := h
  rw [coverage_score_def, hset, Finset.inter_self] at hlt
  have hq : (b.toFinset.card : ℚ) ≠ 0 := by exact_mod_cast h2
  rw [div_self hq] at hlt
  norm_num at hlt

/-- Inversion of a `next` call that returned a batch. -/
theorem next_batch_inv (tk : Tokenizer) (store : List Uttr) (hlen : Nat)
    (es : EpochState) (bs : Nat) (rpy : Bool) (b : Batch)
    (h : (next tk store hlen es bs rpy).1 = NextResult.batch b) :
    es.cur ≠ es.segments.length ∧
    b = (nextLoop store (paddingUttr tk) hlen bs rpy
          (es.segments.drop es.cur) emptyBatch).1 ∧
    (next tk store hlen es bs rpy).2
      = ⟨es.segments, es.cur + (nextLoop store (paddingUttr tk) hlen bs rpy
          (es.segments.drop es.cur) emptyBatch).2⟩ ∧
    b.Y.length ≠ 0 := by
  unfold next at h ⊢
  by_cases hcur : es.cur = es.segments.length
  · rw [if_pos hcur] at h
    simp at h
  · rw [if_neg hcur] at h ⊢
    by_cases hz : (nextLoop store (paddingUttr tk) hlen bs rpy
        (es.segments.drop es.cur) emptyBatch).1.Y.length = 0
    · rw [if_pos hz] at h
      simp at h
    · rw [if_neg hz] at h ⊢
      simp only [NextResult.batch.injEq] at h
      subst h
      exact ⟨hcur, rfl, rfl, hz⟩

/-- C5: `next(batch_size)` returns the terminal sentinel `None` iff the
cursor already equals the segment count at call time; the segment list
is untouched by the call; and the cursor never exceeds the segment
count. -/
theorem claim_C5 (tk : Tokenizer) (store : List Uttr) (hlen : Nat)
    (es : EpochState) (bs : Nat) (rpy : Bool) :
    ((next tk store hlen es bs rpy).1 = NextResult.sentinel
       ↔ es.cur = es.segments.length)
    ∧ (next tk store hlen es bs rpy).2.segments = es.segments
    ∧ (es.cur ≤ es.segments.length →
        (next tk store hlen es bs rpy).2.cur ≤ es.segments.length) := by
  unfold next
  by_cases hcur : es.cur = es.segments.length
  · rw [if_pos hcur]
    exact ⟨by simp [hcur], rfl, by intro h; simpa using Nat.le_of_eq hcur⟩
  · rw [if_neg hcur]
    have hk := nextLoop_k_le store (paddingUttr tk) hlen bs rpy
      (es.segments.drop es.cur) emptyBatch
    rw [List.length_drop] at hk
    by_cases hz : (nextLoop store (paddingUttr tk) hlen bs rpy
        (es.segments.drop es.cur) emptyBatch).1.Y.length = 0
    · rw [if_pos hz]
      refine ⟨by simp [hcur], rfl, ?_⟩
      intro hle
      simp only []
      omega
    · rw [if_neg hz]
      refine ⟨by simp [hcur], rfl, ?_⟩
      intro hle
      simp only []
      omega

/-- C10: on non-empty id sets the dissimilarity decision and the
coverage score are symmetric in their two arguments. -/
theorem claim_C10 (a b : List Nat) (ha : a.toFinset.card ≠ 0)
    (hb : b.toFinset.card ≠ 0) :
    are_different_uttrs a b = are_different_uttrs b a
    ∧ coverage_score a b = coverage_score b a := by
  refine ⟨?_, coverage_score_comm a b⟩
  unfold are_different_uttrs
  rw [coverage_score_comm]
  have hcond : (a.toFinset.card = 0 ∨ b.toFinset.card = 0)
      ↔ (b.toFinset.card = 0 ∨ a.toFinset.card = 0) := or_comm
  simp [ha, hb]

/-- C2: construction appends exactly `2*(n-1)` segments per session
with `n` utterances (0 for `n ≤ 1`, by `Nat` truncated subtraction),
and both the `n_segments` statistic and `__len__` report that total. -/
theorem claim_C2 (tk : Tokenizer) (cfg : Config) (rand : Nat → Nat) (fuel : Nat)
    (sessions : List Session) (ds : DataSource) (ts : List (List Uttr))
    (hts : tokenizeSessions tk cfg sessions = some ts)
    (hmk : mkDataSource tk cfg rand fuel sessions = some ds) :
    ds._segments.length
      = (sessions.map (fun s => 2 * (s.utterances.length - 1))).sum
    ∧ ds.statistics.n_segments = ds._segments.length
    ∧ dsLen ds = ds._segments.length := by
  obtain ⟨rc, inv, hpool, hhl, hnseg, hnsess⟩ :=
    mkDataSource_final_at tk cfg rand fuel sessions ds ts hts hmk
  refine ⟨?_, hnseg, rfl⟩
  have hsegs : ds._segments = segsOf cfg.history_len (poolOf ts).length (segmentPairs ts) :=
    inv.segs_eq
  rw [hsegs, segsOf_length, segmentPairs_length]
  have hlens := tokenizeSessions_lens tk cfg sessions ts hts
  have h1 : ts.map (fun us => us.length - 1)
      = sessions.map (fun s => s.utterances.length - 1) := by
    have : ts.map (fun us : List Uttr => us.length - 1)
        = (ts.map List.length).map (fun n => n - 1) := by
      rw [List.map_map]; rfl
    rw [this, hlens, List.map_map]
    rfl
  rw [h1, ← List.sum_map_mul_left]

/-- C1: every negative target produced at construction has coverage
with its true positive strictly below 0.8, and a candidate is accepted
as a negative exactly when both id sets are non-empty and the coverage
score is below 0.8. -/
theorem claim_C1 (tk : Tokenizer) (cfg : Config) (rand : Nat → Nat) (fuel : Nat)
    (sessions : List Session) (ds : DataSource) (ts : List (List Uttr))
    (hts : tokenizeSessions tk cfg sessions = some ts)
    (hmk : mkDataSource tk cfg rand fuel sessions = some ds) :
    (∀ seg ∈ ds._segments, (segTarget ds.store seg).is_next = false →
      ∀ posId, (segTarget ds.store seg).reference_uttr = some posId →
        coverage_score (segTarget ds.store seg).token_ids
          ((ds.store.getD posId default).token_ids) < 0.8)
    ∧ (∀ a b : List Nat, a.toFinset.card ≠ 0 → b.toFinset.card ≠ 0 →
        (are_different_uttrs a b = some true ↔ coverage_score a b < 0.8)) := by
  obtain ⟨rc, inv, hpool, hhl, _, _⟩ :=
    mkDataSource_final_at tk cfg rand fuel sessions ds ts hts hmk
  constructor
  · intro seg hseg hneg posId href
    obtain ⟨k, hk, hcase⟩ := segsOf_char cfg.history_len (poolOf ts).length
      (segmentPairs ts) seg (by rw [← inv.segs_eq]; exact hseg)
    have hqmem : (segmentPairs ts).getD k (0, 0) ∈ segmentPairs ts :=
      getD_mem _ _ hk
    have hqlt : ((segmentPairs ts).getD k (0, 0)).1
        + ((segmentPairs ts).getD k (0, 0)).2 < (poolOf ts).length :=
      segmentPairs_lt ts _ hqmem
    rcases hcase with hpos | hneg'
    · exfalso
      rw [hpos, segTarget_concat] at hneg
      have h1 := (inv.pool_eq _ hqlt).2.2.2.2.2
      rw [hneg] at h1
      have h2 := (pool_is_next tk cfg sessions ts hts _
        (getD_mem (poolOf ts) default hqlt)).1
      rw [h2] at h1
      simp at h1
    · obtain ⟨c, hc, hcne, hcf, hacc⟩ := inv.neg_copy k hk
      rw [hneg', segTarget_concat] at href ⊢
      have hrefval := hcf.2.2.2.2.2.2
      rw [hrefval] at href
      have hpid := Option.some.inj href
      subst hpid
      rw [hcf.2.2.2.1, (inv.pool_eq _ hqlt).2.2.2.1, coverage_score_comm]
      exact ((are_different_iff _ _).mp hacc).2.2
  · intro a b ha hb
    exact ⟨fun h => ((are_different_iff a b).mp h).2.2,
           fun h => (are_different_iff a b).mpr ⟨ha, hb, h⟩⟩

/-- C3: every constructed segment has between 2 and `history_len + 1`
utterances; all but the last are the contiguous window of one session's
utterances from `max(0, end - history_len)` to `end - 1` (as store
indices, with contents matching the tokenized session records up to the
attached reference); and the last is either the session's true next
utterance (with `is_next = true`) or a substituted negative
(`is_next = false`) referencing the true positive. -/
theorem claim_C3 (tk : Tokenizer) (cfg : Config) (rand : Nat → Nat) (fuel : Nat)
    (sessions : List Session) (ds : DataSource) (ts : List (List Uttr))
    (hts : tokenizeSessions tk cfg sessions = some ts)
    (hmk : mkDataSource tk cfg rand fuel sessions = some ds)
    (hh : 1 ≤ cfg.history_len) :
    ∀ seg ∈ ds._segments,
      2 ≤ seg.utterances.length ∧ seg.utterances.length ≤ cfg.history_len + 1 ∧
      ∃ s e, s < ts.length ∧ 1 ≤ e ∧ e < (ts.getD s []).length ∧
        seg.utterances.dropLast
          = List.range' (offAt ts s + (e - cfg.history_len))
              (e - (e - cfg.history_len)) ∧
        (∀ j, e - cfg.history_len ≤ j → j < e →
          eqExceptRef (ds.store.getD (offAt ts s + j) default)
            ((ts.getD s []).getD j default)) ∧
        ((seg.utterances.getLastD 0 = offAt ts s + e ∧
          (segTarget ds.store seg).is_next = true ∧
          eqExceptRef (segTarget ds.store seg) ((ts.getD s []).getD e default)) ∨
         (ds.pool_size ≤ seg.utterances.getLastD 0 ∧
          (segTarget ds.store seg).is_next = false ∧
          (segTarget ds.store seg).reference_uttr = some (offAt ts s + e))) := by
  obtain ⟨rc, inv, hpool, hhl, _, _⟩ :=
    mkDataSource_final_at tk cfg rand fuel sessions ds ts hts hmk
  intro seg hseg
  obtain ⟨k, hk, hcase⟩ := segsOf_char cfg.history_len (poolOf ts).length
    (segmentPairs ts) seg (by rw [← inv.segs_eq]; exact hseg)
  have hqmem : (segmentPairs ts).getD k (0, 0) ∈ segmentPairs ts := getD_mem _ _ hk
  obtain ⟨s, hs, hq1, he1, he2⟩ := segmentPairs_mem ts _ hqmem
  have hnegcopy := inv.neg_copy k hk
  have hqlt : ((segmentPairs ts).getD k (0, 0)).1
      + ((segmentPairs ts).getD k (0, 0)).2 < (poolOf ts).length :=
    segmentPairs_lt ts _ hqmem
  revert hcase hnegcopy hqlt hq1 he1 he2
  generalize (segmentPairs ts).getD k (0, 0) = q
  obtain ⟨qoff, qe⟩ := q
  intro hcase hq1 he1 he2 hnegcopy hqlt
  simp only [] at hcase hnegcopy hqlt hq1 he1 he2
  subst hq1
  have hctxlen : (ctxIds (offAt ts s, qe) cfg.history_len).length
      = qe - (qe - cfg.history_len) := by
    unfold ctxIds
    exact List.length_range' _ _ _
  have hwin : ∀ j, qe - cfg.history_len ≤ j → j < qe →
      eqExceptRef (ds.store.getD (offAt ts s + j) default)
        ((ts.getD s []).getD j default) := by
    intro j hj1 hj2
    have hjlt : j < (ts.getD s []).length := by omega
    have hidx : offAt ts s + j < (poolOf ts).length := by
      have := offAt_add_le ts s hs
      omega
    have h1 := inv.pool_eq _ hidx
    rw [pool_getD ts s j hs hjlt] at h1
    exact h1
  rcases hcase with hpos | hneg
  · refine ⟨?_, ?_, s, qe, hs, he1, he2, ?_, hwin, ?_⟩
    · rw [hpos]
      simp only [List.length_append, List.length_cons, List.length_nil]
      rw [hctxlen]
      omega
    · rw [hpos]
      simp only [List.length_append, List.length_cons, List.length_nil]
      rw [hctxlen]
      omega
    · rw [hpos]
      simp only [List.dropLast_concat]
      rfl
    · left
      have h1 := inv.pool_eq _ hqlt
      rw [pool_getD ts s qe hs he2] at h1
      have hposu : ((ts.getD s []).getD qe default).is_next = true := by
        have hmem : (ts.getD s []).getD qe default ∈ poolOf ts := by
          rw [← pool_getD ts s qe hs he2]
          exact getD_mem (poolOf ts) default hqlt
        exact (pool_is_next tk cfg sessions ts hts _ hmem).1
      rw [hpos, segTarget_concat]
      refine ⟨by simp [List.getLastD_concat], ?_, h1⟩
      rw [h1.2.2.2.2.2, hposu]
  · obtain ⟨c, hc, hcne, hcf, hacc⟩ := hnegcopy
    refine ⟨?_, ?_, s, qe, hs, he1, he2, ?_, hwin, ?_⟩
    · rw [hneg]
      simp only [List.length_append, List.length_cons, List.length_nil]
      rw [hctxlen]
      omega
    · rw [hneg]
      simp only [List.length_append, List.length_cons, List.length_nil]
      rw [hctxlen]
      omega
    · rw [hneg]
      simp only [List.dropLast_concat]
      rfl
    · right
      rw [hneg, segTarget_concat]
      refine ⟨?_, hcf.2.2.2.2.2.1, hcf.2.2.2.2.2.2⟩
      rw [hpool]
      simp [List.getLastD_concat]

/-- Length bounds of every constructed segment (no lower bound of 2
needed here, so no `history_len ≥ 1` hypothesis). -/
theorem mk_seg_len_bounds (tk : Tokenizer) (cfg : Config) (rand : Nat → Nat)
    (fuel : Nat) (sessions : List Session) (ds : DataSource) (ts : List (List Uttr))
    (hts : tokenizeSessions tk cfg sessions = some ts)
    (hmk : mkDataSource tk cfg rand fuel sessions = some ds) :
    ∀ seg ∈ ds._segments,
      1 ≤ seg.utterances.length ∧ seg.utterances.length ≤ ds.history_len + 1 := by
  obtain ⟨rc, inv, hpool, hhl, _, _⟩ :=
    mkDataSource_final_at tk cfg rand fuel sessions ds ts hts hmk
  intro seg hseg
  obtain ⟨k, hk, hcase⟩ := segsOf_char cfg.history_len (poolOf ts).length
    (segmentPairs ts) seg (by rw [← inv.segs_eq]; exact hseg)
  have hctxlen : (ctxIds ((segmentPairs ts).getD k (0, 0)) cfg.history_len).length
      = ((segmentPairs ts).getD k (0, 0)).2
        - (((segmentPairs ts).getD k (0, 0)).2 - cfg.history_len) := by
    unfold ctxIds
    exact List.length_range' _ _ _
  rw [hhl]
  rcases hcase with hpos | hneg
  · rw [hpos]
    simp only [List.length_append, List.length_cons, List.length_nil]
    rw [hctxlen]
    omega
  · rw [hneg]
    simp only [List.length_append, List.length_cons, List.length_nil]
    rw [hctxlen]
    omega

/-- A constructed segment whose target carries `is_next = false` is the
negative member of a pair: it lives outside the pool region, references
the true positive `u[e]`, and is an accepted deep copy of another pool
utterance. -/
theorem mk_neg_seg_facts (tk : Tokenizer) (cfg : Config) (rand : Nat → Nat)
    (fuel : Nat) (sessions : List Session) (ds : DataSource) (ts : List (List Uttr))
    (hts : tokenizeSessions tk cfg sessions = some ts)
    (hmk : mkDataSource tk cfg rand fuel sessions = some ds)
    (seg : Seg) (hseg : seg ∈ ds._segments)
    (hneg : (segTarget ds.store seg).is_next = false) :
    ∃ s e, s < ts.length ∧ 1 ≤ e ∧ e < (ts.getD s []).length ∧
      (poolOf ts).length ≤ seg.utterances.getLastD 0 ∧
      (segTarget ds.store seg).reference_uttr = some (offAt ts s + e) ∧
      (ds.store.getD (offAt ts s + e) default).token_ids
        = ((ts.getD s []).getD e default).token_ids ∧
      ∃ c, c < (poolOf ts).length ∧ c ≠ offAt ts s + e ∧
        copyFields (segTarget ds.store seg) ((poolOf ts).getD c default)
          (offAt ts s + e) ∧
        are_different_uttrs ((poolOf ts).getD (offAt ts s + e) default).token_ids
          ((poolOf ts).getD c default).token_ids = some true := by
  obtain ⟨rc, inv, hpool, hhl, _, _⟩ :=
    mkDataSource_final_at tk cfg rand fuel sessions ds ts hts hmk
  obtain ⟨k, hk, hcase⟩ := segsOf_char cfg.history_len (poolOf ts).length
    (segmentPairs ts) seg (by rw [← inv.segs_eq]; exact hseg)
  have hqmem : (segmentPairs ts).getD k (0, 0) ∈ segmentPairs ts := getD_mem _ _ hk
  obtain ⟨s, hs, hq1, he1, he2⟩ := segmentPairs_mem ts _ hqmem
  have hnegcopy := inv.neg_copy k hk
  have hqlt : ((segmentPairs ts).getD k (0, 0)).1
      + ((segmentPairs ts).getD k (0, 0)).2 < (poolOf ts).length :=
    segmentPairs_lt ts _ hqmem
  revert hcase hnegcopy hqlt hq1 he1 he2
  generalize (segmentPairs ts).getD k (0, 0) = q
  obtain ⟨qoff, qe⟩ := q
  intro hcase hq1 he1 he2 hnegcopy hqlt
  simp only [] at hcase hnegcopy hqlt hq1 he1 he2
  subst hq1
  rcases hcase with hpos | hnegseg
  · exfalso
    rw [hpos, segTarget_concat] at hneg
    have h1 := (inv.pool_eq _ hqlt).2.2.2.2.2
    rw [hneg] at h1
    have h2 := (pool_is_next tk cfg sessions ts hts _
      (getD_mem (poolOf ts) default hqlt)).1
    rw [h2] at h1
    simp at h1
  · obtain ⟨c, hc, hcne, hcf, hacc⟩ := hnegcopy
    rw [hnegseg, segTarget_concat]
    refine ⟨s, qe, hs, he1, he2, by simp [List.getLastD_concat],
      hcf.2.2.2.2.2.2, ?_, c, hc, hcne, hcf, hacc⟩
    rw [(inv.pool_eq _ hqlt).2.2.2.1, pool_getD ts s qe hs he2]

/-- C8: every negative target is an independent deep copy outside the
shared pool (so the `is_next := false` / `reference_uttr` writes on it
leave every pool utterance intact, all of which keep `is_next = true`),
its source is a pool utterance that is never the positive itself. -/
theorem claim_C8 (tk : Tokenizer) (cfg : Config) (rand : Nat → Nat) (fuel : Nat)
    (sessions : List Session) (ds : DataSource) (ts : List (List Uttr))
    (hts : tokenizeSessions tk cfg sessions = some ts)
    (hmk : mkDataSource tk cfg rand fuel sessions = some ds) :
    (∀ i, i < ds.pool_size →
      eqExceptRef (ds.store.getD i default) ((poolOf ts).getD i default) ∧
      (ds.store.getD i default).is_next = true)
    ∧ (∀ seg ∈ ds._segments, (segTarget ds.store seg).is_next = false →
        ds.pool_size ≤ seg.utterances.getLastD 0 ∧
        ∀ posId, (segTarget ds.store seg).reference_uttr = some posId →
          ∃ c, c < ds.pool_size ∧ c ≠ posId ∧
            copyFields (segTarget ds.store seg) ((poolOf ts).getD c default) posId ∧
            ((poolOf ts).getD c default).token_ids.toFinset
              ≠ ((poolOf ts).getD posId default).token_ids.toFinset) := by
  obtain ⟨rc, inv, hpool, hhl, _, _⟩ :=
    mkDataSource_final_at tk cfg rand fuel sessions ds ts hts hmk
  constructor
  · intro i hi
    rw [hpool] at hi
    have h1 := inv.pool_eq i hi
    refine ⟨h1, ?_⟩
    rw [h1.2.2.2.2.2]
    exact (pool_is_next tk cfg sessions ts hts _ (getD_mem (poolOf ts) default hi)).1
  · intro seg hseg hneg
    obtain ⟨s, e, hs, he1, he2, hout, href, hposids, c, hc, hcne, hcf, hacc⟩ :=
      mk_neg_seg_facts tk cfg rand fuel sessions ds ts hts hmk seg hseg hneg
    refine ⟨by rw [hpool]; exact hout, ?_⟩
    intro posId hpid
    rw [href] at hpid
    have hpe := Option.some.inj hpid
    subst hpe
    refine ⟨c, by rw [hpool]; exact hc, hcne, hcf, ?_⟩
    intro hset
    exact are_different_ne_sets _ _ hacc hset.symm

/-- C7: in a batch returned with `return_paired_Y = True`, every
recorded target has `Y_is_next = false`, and its `Y_ref` entry is the
token-id sequence of the true positive utterance at the end-index the
negative replaced. -/
theorem claim_C7 (tk : Tokenizer) (cfg : Config) (rand : Nat → Nat) (fuel : Nat)
    (sessions : List Session) (ds : DataSource) (ts : List (List Uttr))
    (hts : tokenizeSessions tk cfg sessions = some ts)
    (hmk : mkDataSource tk cfg rand fuel sessions = some ds)
    (es : EpochState) (bs : Nat) (b : Batch)
    (hes : es.segments = ds._segments)
    (hb : (next tk ds.store ds.history_len es bs true).1 = NextResult.batch b) :
    ∀ i, i < b.Y.length →
      b.Y_is_next.getD i true = false ∧
      ∃ s e, s < ts.length ∧ 1 ≤ e ∧ e < (ts.getD s []).length ∧
        (∃ seg ∈ ds._segments,
          b.Y.getD i [] = (segTarget ds.store seg).token_ids ∧
          (segTarget ds.store seg).is_next = false ∧
          (segTarget ds.store seg).reference_uttr = some (offAt ts s + e)) ∧
        b.Y_ref.getD i [] = ((ts.getD s []).getD e default).token_ids := by
  obtain ⟨hcur, hbval, hes', hynn⟩ :=
    next_batch_inv tk ds.store ds.history_len es bs true b hb
  have hbounds := mk_seg_len_bounds tk cfg rand fuel sessions ds ts hts hmk
  have hfrom : batchFrom ds.store (paddingUttr tk) ds.history_len true
      ds._segments b := by
    rw [hbval]
    apply nextLoop_from
    · intro g hg
      have hgmem : g ∈ ds._segments := by
        rw [← hes]
        exact List.drop_subset _ _ hg
      exact ⟨hgmem, (hbounds g hgmem).1, (hbounds g hgmem).2⟩
    · exact batchFrom_empty _ _ _ _ _
  intro i hi
  obtain ⟨seg, hsegmem, hskip, _, _, hy, _, hyn, hyr⟩ := hfrom.2.2.2.2.2 i hi
  have hnegtgt : (segTarget ds.store seg).is_next = false := hskip rfl
  obtain ⟨s, e, hs, he1, he2, hout, href, hposids, _⟩ :=
    mk_neg_seg_facts tk cfg rand fuel sessions ds ts hts hmk seg hsegmem hnegtgt
  refine ⟨by rw [hyn, hnegtgt], s, e, hs, he1, he2,
    ⟨seg, hsegmem, hy, hnegtgt, href⟩, ?_⟩
  rw [hyr, href]
  simp only [Option.getD_some]
  exact hposids

/-- C4 (amended): each sample accepted into a batch occupies exactly
`history_len` slots of `X`/`X_floor`: the segment's context rows first,
then (right-)padding with the empty tokenized bos/eos-wrapped
placeholder utterance (floor id 0), and `X` factors as
`batch × history_len` rows. -/
theorem claim_C4 (tk : Tokenizer) (cfg : Config) (rand : Nat → Nat) (fuel : Nat)
    (sessions : List Session) (ds : DataSource) (ts : List (List Uttr))
    (hts : tokenizeSessions tk cfg sessions = some ts)
    (hmk : mkDataSource tk cfg rand fuel sessions = some ds)
    (es : EpochState) (bs : Nat) (rpy : Bool) (b : Batch)
    (hes : es.segments = ds._segments)
    (hb : (next tk ds.store ds.history_len es bs rpy).1 = NextResult.batch b) :
    b.X.length = b.Y.length * ds.history_len ∧
    b.X_floor.length = b.Y.length * ds.history_len ∧
    ∀ i, i < b.Y.length → ∃ seg ∈ ds._segments,
      seg.utterances.length ≤ ds.history_len + 1 ∧
      chunkAt b.X ds.history_len i
        = (segCtx ds.store seg).map Uttr.token_ids
          ++ List.replicate ((ds.history_len + 1) - seg.utterances.length)
              (paddingUttr tk).token_ids ∧
      chunkAt b.X_floor ds.history_len i
        = (segCtx ds.store seg).map Uttr.floor_id
          ++ List.replicate ((ds.history_len + 1) - seg.utterances.length)
              (paddingUttr tk).floor_id ∧
      b.Y.getD i [] = (segTarget ds.store seg).token_ids := by
  obtain ⟨hcur, hbval, hes', hynn⟩ :=
    next_batch_inv tk ds.store ds.history_len es bs rpy b hb
  have hbounds := mk_seg_len_bounds tk cfg rand fuel sessions ds ts hts hmk
  have hfrom : batchFrom ds.store (paddingUttr tk) ds.history_len rpy
      ds._segments b := by
    rw [hbval]
    apply nextLoop_from
    · intro g hg
      have hgmem : g ∈ ds._segments := by
        rw [← hes]
        exact List.drop_subset _ _ hg
      exact ⟨hgmem, (hbounds g hgmem).1, (hbounds g hgmem).2⟩
    · exact batchFrom_empty _ _ _ _ _
  refine ⟨hfrom.1, hfrom.2.1, ?_⟩
  intro i hi
  obtain ⟨seg, hsegmem, _, hcx, hcxf, hy, _, _, _⟩ := hfrom.2.2.2.2.2 i hi
  exact ⟨seg, hsegmem, (hbounds seg hsegmem).2, hcx, hcxf, hy⟩

/-- C6 (amended): with the cursor strictly below the segment count,
`next` never returns the `None` sentinel; a returned batch has at most
`batch_size` targets and is smaller only when the call consumed the
tail of the epoch; and without `return_paired_Y` filtering (and a
positive `batch_size`) a batch is in fact returned.  (When nothing is
collected — `batch_size = 0` or filtering skips every remaining
segment — the code raises `ZeroDivisionError` instead of returning an
empty batch; see the counterexample.) -/
theorem claim_C6 (tk : Tokenizer) (store : List Uttr) (hlen : Nat)
    (es : EpochState) (bs : Nat) (rpy : Bool)
    (hcur : es.cur < es.segments.length) :
    (next tk store hlen es bs rpy).1 ≠ NextResult.sentinel
    ∧ (∀ b, (next tk store hlen es bs rpy).1 = NextResult.batch b →
        b.Y.length ≤ bs ∧
        (b.Y.length < bs →
          (next tk store hlen es bs rpy).2.cur = es.segments.length))
    ∧ (rpy = false → 1 ≤ bs →
        ∃ b, (next tk store hlen es bs rpy).1 = NextResult.batch b) := by
  have hne : es.cur ≠ es.segments.length := Nat.ne_of_lt hcur
  refine ⟨?_, ?_, ?_⟩
  · unfold next
    rw [if_neg hne]
    by_cases hz : (nextLoop store (paddingUttr tk) hlen bs rpy
        (es.segments.drop es.cur) emptyBatch).1.Y.length = 0
    · rw [if_pos hz]; simp
    · rw [if_neg hz]; simp
  · intro b hb
    obtain ⟨_, hbval, hes', _⟩ := next_batch_inv tk store hlen es bs rpy b hb
    constructor
    · rw [hbval]
      exact nextLoop_Y_le_bs store (paddingUttr tk) hlen bs rpy _ emptyBatch
        (Nat.zero_le bs)
    · intro hlt
      rw [hes']
      simp only []
      have hk := nextLoop_tail store (paddingUttr tk) hlen bs rpy
        (es.segments.drop es.cur) emptyBatch (Nat.zero_le bs) (by rw [← hbval]; exact hlt)
      rw [hk, List.length_drop]
      omega
  · intro hrpy hbs
    subst hrpy
    have hnil : es.segments.drop es.cur ≠ [] := by
      intro hcon
      have := congrArg List.length hcon
      rw [List.length_drop] at this
      simp at this
      omega
    obtain ⟨seg, rest, hsr⟩ := List.exists_cons_of_ne_nil hnil
    have hpos : 1 ≤ (nextLoop store (paddingUttr tk) hlen bs false
        (es.segments.drop es.cur) emptyBatch).1.Y.length := by
      rw [hsr]
      have := nextLoop_false_progress store (paddingUttr tk) hlen bs seg rest
        emptyBatch (by simpa [emptyBatch] using hbs)
      simpa [emptyBatch] using this
    refine ⟨(nextLoop store (paddingUttr tk) hlen bs false
        (es.segments.drop es.cur) emptyBatch).1, ?_⟩
    unfold next
    rw [if_neg hne, if_neg (by omega)]

/-- C9: without shuffling the epoch order is the construction order:
draining in one unfiltered `next` call returns the targets of
`self._segments` in order, whose `is_next` flags alternate
`[true, false, true, false, ...]`, and the call consumes every
segment. -/
theorem claim_C9 (tk : Tokenizer) (cfg : Config) (rand : Nat → Nat) (fuel : Nat)
    (sessions : List Session) (ds : DataSource) (ts : List (List Uttr))
    (hts : tokenizeSessions tk cfg sessions = some ts)
    (hmk : mkDataSource tk cfg rand fuel sessions = some ds)
    (shuffler : List Seg → List Seg) :
    (epoch_init ds false shuffler).segments = ds._segments
    ∧ (∀ b, (next tk ds.store ds.history_len (epoch_init ds false shuffler)
          (dsLen ds) false).1 = NextResult.batch b →
        b.Y = ds._segments.map (fun g => (segTarget ds.store g).token_ids) ∧
        b.Y_is_next = altPattern (dsLen ds / 2) ∧
        (next tk ds.store ds.history_len (epoch_init ds false shuffler)
          (dsLen ds) false).2.cur = dsLen ds)
    ∧ (0 < dsLen ds →
        (next tk ds.store ds.history_len (epoch_init ds false shuffler)
          (dsLen ds) false).1 ≠ NextResult.sentinel
        ∧ (next tk ds.store ds.history_len (epoch_init ds false shuffler)
            (dsLen ds) false).1 ≠ NextResult.err) := by
  obtain ⟨rc, inv, hpool, hhl, _, _⟩ :=
    mkDataSource_final_at tk cfg rand fuel sessions ds ts hts hmk
  have hinit : epoch_init ds false shuffler = ⟨ds._segments, 0⟩ := by
    unfold epoch_init
    rw [if_neg (by simp)]
  have hfull := nextLoop_false_full ds.store (paddingUttr tk) ds.history_len
    (dsLen ds) ds._segments emptyBatch
    (by simp [emptyBatch, dsLen])
  obtain ⟨hfk, hfy, hfn⟩ := hfull
  have hpat : ds._segments.map (fun g => (segTarget ds.store g).is_next)
      = altPattern (segmentPairs ts).length := by
    have hfacts := buildInv_pattern_facts (poolOf ts) cfg.history_len
      (segmentPairs ts) ⟨ds.store, ds._segments, rc⟩ inv
      (fun u hu => (pool_is_next tk cfg sessions ts hts u hu).1)
      (fun q hq => segmentPairs_lt ts q hq)
    have := segsOf_is_next_pattern ds.store cfg.history_len (poolOf ts).length
      (segmentPairs ts) hfacts
    rw [← inv.segs_eq] at this
    exact this
  have hseq : ds._segments
      = segsOf cfg.history_len (poolOf ts).length (segmentPairs ts) := inv.segs_eq
  have hcount : dsLen ds = 2 * (segmentPairs ts).length := by
    unfold dsLen
    rw [hseq, segsOf_length]
  refine ⟨by rw [hinit], ?_, ?_⟩
  · intro b hb
    obtain ⟨hcur, hbval, hes', _⟩ := next_batch_inv tk ds.store ds.history_len
      (epoch_init ds false shuffler) (dsLen ds) false b hb
    rw [hinit] at hbval
    simp only [List.drop_zero] at hbval
    refine ⟨?_, ?_, ?_⟩
    · rw [hbval, hfy]
      simp [emptyBatch]
    · rw [hbval, hfn, hpat]
      have : dsLen ds / 2 = (segmentPairs ts).length := by omega
      rw [this]
      simp [emptyBatch]
    · rw [hes']
      simp only [hinit, List.drop_zero]
      rw [hfk]
      simp [dsLen]
  · intro hlen0
    have hne : (epoch_init ds false shuffler).cur
        ≠ (epoch_init ds false shuffler).segments.length := by
      rw [hinit]
      simp only []
      unfold dsLen at hlen0
      omega
    have hz : (nextLoop ds.store (paddingUttr tk) ds.history_len (dsLen ds) false
        ((epoch_init ds false shuffler).segments.drop
          (epoch_init ds false shuffler).cur) emptyBatch).1.Y.length ≠ 0 := by
      rw [hinit]
      simp only [List.drop_zero]
      rw [hfy]
      simp only [emptyBatch, List.nil_append, List.length_map]
      unfold dsLen at hlen0
      omega
    constructor
    · unfold next
      rw [if_neg hne, if_neg hz]
      simp
    · unfold next
      rw [if_neg hne, if_neg hz]
      simp

/-- The tokenized form of `testSessions`. -/
def testTs : List (List Uttr) :=
  (tokenizeSessions testTokenizer testConfig testSessions).getD []

/-- The batch produced by one unfiltered full-epoch `next` call on the
test data source. -/
def testBatch : Batch :=
  { X := [[1, 3, 4, 2], [1, 2], [1, 3, 4, 2], [1, 2],
          [1, 3, 4, 2], [1, 5, 6, 2], [1, 3, 4, 2], [1, 5, 6, 2]]
    X_floor := [0, 0, 0, 0, 0, 1, 0, 1]
    Y := [[1, 5, 6, 2], [1, 7, 8, 2], [1, 7, 8, 2], [1, 3, 4, 2]]
    Y_floor := [1, 0, 0, 0]
    Y_is_next := [true, false, true, false]
    Y_ref := [[1, 5, 6, 2], [1, 5, 6, 2], [1, 7, 8, 2], [1, 7, 8, 2]] }

/-- The batch produced by one `return_paired_Y = True` full-epoch
`next` call on the test data source. -/
def testBatchP : Batch :=
  { X := [[1, 3, 4, 2], [1, 2], [1, 3, 4, 2], [1, 5, 6, 2]]
    X_floor := [0, 0, 0, 1]
    Y := [[1, 7, 8, 2], [1, 3, 4, 2]]
    Y_floor := [0, 0]
    Y_is_next := [false, false]
    Y_ref := [[1, 5, 6, 2], [1, 7, 8, 2]] }

unseal Rat.mul Rat.inv Rat.add Rat.ofScientific in
/-- C4 counterexample: the claim calls the placeholder slots
"left-padded", but a sample with one context utterance and
`history_len = 2` gets its context row first and the empty placeholder
row after it — the padding is on the right, not on the left. -/
theorem claim_C4_counterexample :
    (next testTokenizer testDS.store testDS.history_len
        (epoch_init testDS false id) 1 false).1
      = NextResult.batch
          ⟨[[1, 3, 4, 2], [1, 2]], [0, 0], [[1, 5, 6, 2]], [1], [true], [[1, 5, 6, 2]]⟩
    ∧ [[1, 3, 4, 2], [1, 2]] ≠ ([[1, 2], [1, 3, 4, 2]] : List (List Nat)) := by
  constructor
  · decide
  · decide

unseal Rat.mul Rat.inv Rat.add Rat.ofScientific in
/-- C6 counterexample: after a shuffle that leaves only a positive
segment before the cursor reaches the end, a `return_paired_Y = True`
call with the cursor strictly below the segment count collects no
target and raises `ZeroDivisionError` (modelled `NextResult.err`)
instead of returning an empty batch. -/
theorem claim_C6_counterexample :
    (next testTokenizer testDS.store testDS.history_len
      (next testTokenizer testDS.store testDS.history_len
        (next testTokenizer testDS.store testDS.history_len
          (epoch_init testDS true List.reverse) 1 true).2 1 true).2 1 true).1
      = NextResult.err
    ∧ (next testTokenizer testDS.store testDS.history_len
        (next testTokenizer testDS.store testDS.history_len
          (epoch_init testDS true List.reverse) 1 true).2 1 true).2.cur = 3
    ∧ (next testTokenizer testDS.store testDS.history_len
        (next testTokenizer testDS.store testDS.history_len
          (epoch_init testDS true List.reverse) 1 true).2 1 true).2.segments.length
      = 4 := by
  refine ⟨?_, ?_, ?_⟩ <;> decide

unseal Rat.mul Rat.inv Rat.add Rat.ofScientific in
/-- Witness for C1 on the concrete test data source: the first negative
segment's target scores below 0.8 against its true positive. -/
theorem claim_C1_witness :
    coverage_score (segTarget testDS.store (testDS._segments.getD 1 default)).token_ids
      ((testDS.store.getD 1 default).token_ids) < 0.8 :=
  (claim_C1 testTokenizer testConfig testRand 3 testSessions testDS testTs
      (by decide) (by decide)).1
    (testDS._segments.getD 1 default) (by decide) (by decide) 1 (by decide)

unseal Rat.mul Rat.inv Rat.add Rat.ofScientific in
/-- Witness for C2 on the concrete test data source. -/
theorem claim_C2_witness :
    testDS._segments.length
      = (testSessions.map (fun s => 2 * (s.utterances.length - 1))).sum
    ∧ testDS.statistics.n_segments = testDS._segments.length
    ∧ dsLen testDS = testDS._segments.length :=
  claim_C2 testTokenizer testConfig testRand 3 testSessions testDS testTs
    (by decide) (by decide)

unseal Rat.mul Rat.inv Rat.add Rat.ofScientific in
/-- Witness for C3 on the concrete test data source. -/
theorem claim_C3_witness :
    2 ≤ (testDS._segments.getD 0 default).utterances.length
    ∧ (testDS._segments.getD 0 default).utterances.length ≤ testConfig.history_len + 1 :=
  ⟨((claim_C3 testTokenizer testConfig testRand 3 testSessions testDS testTs
      (by decide) (by decide) (by decide))
    (testDS._segments.getD 0 default) (by decide)).1,
   ((claim_C3 testTokenizer testConfig testRand 3 testSessions testDS testTs
      (by decide) (by decide) (by decide))
    (testDS._segments.getD 0 default) (by decide)).2.1⟩

unseal Rat.mul Rat.inv Rat.add Rat.ofScientific in
/-- Witness for C4 (amended) on the concrete test data source. -/
theorem claim_C4_witness :
    testBatch.X.length = testBatch.Y.length * testDS.history_len
    ∧ testBatch.X_floor.length = testBatch.Y.length * testDS.history_len :=
  ⟨(claim_C4 testTokenizer testConfig testRand 3 testSessions testDS testTs
      (by decide) (by decide) (epoch_init testDS false id) 4 false testBatch
      (by decide) (by decide)).1,
   (claim_C4 testTokenizer testConfig testRand 3 testSessions testDS testTs
      (by decide) (by decide) (epoch_init testDS false id) 4 false testBatch
      (by decide) (by decide)).2.1⟩

unseal Rat.mul Rat.inv Rat.add Rat.ofScientific in
/-- Witness for C5 on the concrete test data source. -/
theorem claim_C5_witness :
    (next testTokenizer testDS.store testDS.history_len
        (epoch_init testDS false id) 4 false).2.cur
      ≤ (epoch_init testDS false id).segments.length :=
  (claim_C5 testTokenizer testDS.store testDS.history_len
      (epoch_init testDS false id) 4 false).2.2 (by decide)

unseal Rat.mul Rat.inv Rat.add Rat.ofScientific in
/-- Witness for C6 (amended) on the concrete test data source. -/
theorem claim_C6_witness :
    testBatch.Y.length ≤ 4
    ∧ (testBatch.Y.length < 4 →
        (next testTokenizer testDS.store testDS.history_len
          (epoch_init testDS false id) 4 false).2.cur
          = (epoch_init testDS false id).segments.length) :=
  (claim_C6 testTokenizer testDS.store testDS.history_len
      (epoch_init testDS false id) 4 false (by decide)).2.1 testBatch (by decide)

unseal Rat.mul Rat.inv Rat.add Rat.ofScientific in
/-- Witness for C7 on the concrete test data source: the first entry of
a paired batch is a negative. -/
theorem claim_C7_witness : testBatchP.Y_is_next.getD 0 true = false :=
  ((claim_C7 testTokenizer testConfig testRand 3 testSessions testDS testTs
      (by decide) (by decide) (epoch_init testDS false id) 4 testBatchP
      (by decide) (by decide)) 0 (by decide)).1

unseal Rat.mul Rat.inv Rat.add Rat.ofScientific in
/-- Witness for C8 on the concrete test data source: the first pool
utterance is untouched. -/
theorem claim_C8_witness :
    eqExceptRef (testDS.store.getD 0 default) ((poolOf testTs).getD 0 default)
    ∧ (testDS.store.getD 0 default).is_next = true :=
  (claim_C8 testTokenizer testConfig testRand 3 testSessions testDS testTs
      (by decide) (by decide)).1 0 (by decide)

unseal Rat.mul Rat.inv Rat.add Rat.ofScientific in
/-- Witness for C9 on the concrete test data source: the full-epoch
unfiltered call consumes every segment. -/
theorem claim_C9_witness :
    (next testTokenizer testDS.store testDS.history_len
        (epoch_init testDS false id) (dsLen testDS) false).2.cur = dsLen testDS :=
  ((claim_C9 testTokenizer testConfig testRand 3 testSessions testDS testTs
      (by decide) (by decide) id).2.1 testBatch (by decide)).2.2

/-- Witness for C10 at concrete non-empty id lists. -/
theorem claim_C10_witness :
    are_different_uttrs [1, 3, 4, 2] [1, 5, 6, 2]
      = are_different_uttrs [1, 5, 6, 2] [1, 3, 4, 2]
    ∧ coverage_score [1, 3, 4, 2] [1, 5, 6, 2]
      = coverage_score [1, 5, 6, 2] [1, 3, 4, 2] :=
  claim_C10 [1, 3, 4, 2] [1, 5, 6, 2] (by decide) (by decide)
